import Mathlib

/-!  Verification of the fiasco-lsp source-mapping and dispatch logic.

Shallow embedding of `src/source_mapping.rs`, `src/util.rs`, `src/dispatch.rs`,
`src/global_state.rs` and the handlers in `src/handler/`.  Machine integers
(`u32`, `usize`) are modeled as `Nat`, with an explicit `% 2 ^ 32` at the
points where the Rust code casts; subtraction sites that could overflow in
Rust (a panic in debug builds) are guarded by hypotheses in the theorems.
Strings and paths (`String`, `PathBuf`) are lists of characters; hash maps
(`HashMap`) are association lists with the source's insert/remove semantics. -/

/-- Character strings (`String` / `PathBuf` / `Url` in the source) as lists
of characters. -/
abbrev Str := List Char

/-- The `u32` cast of a `usize` value (`x as u32` in the source). -/
def asU32 (x : Nat) : Nat := x % 2 ^ 32

/-- `PreprocessSection` from src/source_mapping.rs. -/
inductive PreprocessSection where
  | none
  | interface
  | implementation
deriving DecidableEq, Repr

/-- `LineMapping` from src/source_mapping.rs.  The Rust field `section` is a
Lean keyword and is rendered `sec`.  `src_end_line` is documented
`// Exclusive` in the source. -/
structure LineMapping where
  sec : PreprocessSection
  src_line : Nat
  src_end_line : Nat
  dst_file : Str
  dst_line : Nat
deriving DecidableEq, Repr

/-- `LineMapping::contains` from src/source_mapping.rs:
`line >= self.src_line && line <= self.src_end_line`. -/
def LineMapping.contains (m : LineMapping) (line : Nat) : Bool :=
  line ≥ m.src_line && line ≤ m.src_end_line

/-- `LineMapping::overlaps` from src/source_mapping.rs:
`start <= self.src_end_line && self.src_line <= end`. -/
def LineMapping.overlaps (m : LineMapping) (start stop : Nat) : Bool :=
  start ≤ m.src_end_line && m.src_line ≤ stop

/-- `FileLineMappings` from src/source_mapping.rs: one list of mappings per
section, the list of destination files, and the maximum end line seen. -/
structure FileLineMappings where
  files : List Str
  none : List LineMapping
  interface : List LineMapping
  implementation : List LineMapping
  length : Nat
deriving DecidableEq, Repr

/-- `FileLineMappings::new`. -/
def FileLineMappings.new : FileLineMappings :=
  ⟨[], [], [], [], 0⟩

/-- `FileLineMappings::get`: select the section list. -/
def FileLineMappings.get (m : FileLineMappings) :
    PreprocessSection → List LineMapping
  | .none => m.none
  | .interface => m.interface
  | .implementation => m.implementation

/-- `FileLineMappings::push`: update `length`, record the destination file if
it is new, and append the mapping to its section list (`access`). -/
def FileLineMappings.push (m : FileLineMappings) (mp : LineMapping) :
    FileLineMappings :=
  let m := if mp.src_end_line > m.length then
    { m with length := mp.src_end_line } else m
  let m := if mp.dst_file ∈ m.files then m else
    { m with files := m.files ++ [mp.dst_file] }
  match mp.sec with
  | .none => { m with none := m.none ++ [mp] }
  | .interface => { m with interface := m.interface ++ [mp] }
  | .implementation => { m with implementation := m.implementation ++ [mp] }

/-- `FileLineMappings::from_mappings`. -/
def FileLineMappings.from_mappings (mappings : List LineMapping) :
    FileLineMappings :=
  mappings.foldl FileLineMappings.push FileLineMappings.new

/-- Association-list lookup, the model of `HashMap::get`. -/
def alookup {α : Type} (l : List (Str × α)) (k : Str) : Option α :=
  match l with
  | [] => Option.none
  | (k', v) :: rest => if k' = k then Option.some v else alookup rest k

/-- `type LineMappings = HashMap<PathBuf, FileLineMappings>` as an
association list. -/
abbrev LineMappings := List (Str × FileLineMappings)

/-- `MapDirection` from src/source_mapping.rs. -/
inductive MapDirection where
  | toPreprocess
  | fromPreprocess
deriving DecidableEq, Repr

/-- `FiascoSourceMapping` from src/source_mapping.rs. -/
structure FiascoSourceMapping where
  to_preprocess : LineMappings
  from_preprocess : LineMappings
deriving DecidableEq, Repr

/-- `SourceLocation` from src/source_mapping.rs. -/
structure SourceLocation where
  path : Str
  line : Nat
  character : Nat
deriving DecidableEq, Repr

/-- `slice::partition_point`: number of leading elements satisfying the
predicate.  The Rust standard-library function performs a binary search whose
result is specified (and used by the source, see the `NOTE` in
`find_mapping`) only for partitioned slices, where it coincides with this
count of the satisfying prefix. -/
def partitionPoint {α : Type} (p : α → Bool) (l : List α) : Nat :=
  (l.takeWhile p).length

/-- `FiascoSourceMapping::find_mapping` from src/source_mapping.rs:
partition by `line >= l.src_line`, take the mapping just before the partition
point, and return it when it `contains` the line.  (The source's
`assert!(line >= mapping.src_line)` holds by construction here because the
partition point is the length of the satisfying prefix.) -/
def find_mapping (line_mappings : LineMappings) (path : Str) (line : Nat)
    (sec : PreprocessSection) : Option LineMapping :=
  match alookup line_mappings path with
  | Option.none => Option.none
  | Option.some mappings =>
    let lst := mappings.get sec
    let index := partitionPoint (fun l => line ≥ l.src_line) lst
    if index > 0 then
      match lst[index - 1]? with
      | Option.some mapping =>
        if mapping.contains line then Option.some mapping else Option.none
      | Option.none => Option.none
    else
      Option.none

/-- `FiascoSourceMapping::get`: select the direction. -/
def FiascoSourceMapping.get (sm : FiascoSourceMapping) :
    MapDirection → LineMappings
  | .toPreprocess => sm.to_preprocess
  | .fromPreprocess => sm.from_preprocess

/-- `FiascoSourceMapping::map` from src/source_mapping.rs: search the section
lists in the order Implementation, Interface, None; translate through the
first mapping found, otherwise return the input unchanged. -/
def FiascoSourceMapping.map (sm : FiascoSourceMapping)
    (direction : MapDirection) (path : Str) (line character : Nat) :
    SourceLocation :=
  let line_mappings := sm.get direction
  let mapping :=
    ((find_mapping line_mappings path line .implementation).orElse
      (fun _ => find_mapping line_mappings path line .interface)).orElse
      (fun _ => find_mapping line_mappings path line .none)
  match mapping with
  | Option.none => ⟨path, line, character⟩
  | Option.some mapping =>
    ⟨mapping.dst_file, mapping.dst_line + (line - mapping.src_line), character⟩

/-- `FiascoSourceMapping::map_files` from src/source_mapping.rs. -/
def FiascoSourceMapping.map_files (sm : FiascoSourceMapping)
    (direction : MapDirection) (path : Str) : List Str :=
  match alookup (sm.get direction) path with
  | Option.none => []
  | Option.some mappings => mappings.files

/-- `Position` from lsp_types. -/
structure Position where
  line : Nat
  character : Nat
deriving DecidableEq, Repr

/-- `Range` from lsp_types.  The Rust field `end` is a Lean keyword and is
rendered `stop`. -/
structure Range where
  start : Position
  stop : Position
deriving DecidableEq, Repr

/-- Result of `FiascoSourceMapping::map_range` from src/util.rs.  The Rust
function mutates `path` and `range` through `&mut` references and returns
`Result<(), ()>`; the model returns the observable final state: the success
flag together with the values of `path` and `range` after the call. -/
structure MapRangeResult where
  ok : Bool
  path : Str
  range : Range
deriving DecidableEq, Repr

/-- `FiascoSourceMapping::map_range` from src/util.rs: map both endpoints
independently (both against the original `path`), fail — leaving `path` and
`range` untouched — when the mapped endpoints land in different files, and
otherwise write the translated path and endpoints back. -/
def FiascoSourceMapping.map_range (sm : FiascoSourceMapping)
    (direction : MapDirection) (path : Str) (range : Range) : MapRangeResult :=
  let mapped_start := sm.map direction path range.start.line range.start.character
  let mapped_end := sm.map direction path range.stop.line range.stop.character
  if mapped_start.path ≠ mapped_end.path then
    ⟨false, path, range⟩
  else
    ⟨true, mapped_start.path,
      ⟨⟨mapped_start.line, mapped_start.character⟩,
       ⟨mapped_end.line, mapped_end.character⟩⟩⟩

/-- `FiascoSourceMapping::map_range_uri` from src/util.rs: extract the path
from the (file-scheme) URI, delegate to `map_range`, and write the resulting
path back into the URI only on success (`?` returns early on error).  URIs
are modeled by their path component. -/
def FiascoSourceMapping.map_range_uri (sm : FiascoSourceMapping)
    (direction : MapDirection) (uri : Str) (range : Range) : MapRangeResult :=
  sm.map_range direction uri range

/-- `Location` from lsp_types. -/
structure Location where
  uri : Str
  range : Range
deriving DecidableEq, Repr

/-- Result of `FiascoSourceMapping::map_location` from src/util.rs, the
observable final state of the `&mut Location` argument plus the success
flag. -/
structure MapLocationResult where
  ok : Bool
  location : Location
deriving DecidableEq, Repr

/-- `FiascoSourceMapping::map_location` from src/util.rs. -/
def FiascoSourceMapping.map_location (sm : FiascoSourceMapping)
    (direction : MapDirection) (location : Location) : MapLocationResult :=
  let r := sm.map_range_uri direction location.uri location.range
  ⟨r.ok, ⟨r.path, r.range⟩⟩

/-- The point query never changes the character (column) value: both branches
of `FiascoSourceMapping::map` return `character` unchanged. -/
theorem map_character_eq (sm : FiascoSourceMapping) (direction : MapDirection)
    (path : Str) (line character : Nat) :
    (sm.map direction path line character).character = character := by
  simp only [FiascoSourceMapping.map]
  cases ((find_mapping (sm.get direction) path line .implementation).orElse
      (fun _ => find_mapping (sm.get direction) path line .interface)).orElse
      (fun _ => find_mapping (sm.get direction) path line .none) with
  | none => rfl
  | some m => rfl

/-- C7: `map_range` maps `range.start` and `range.end` independently with the
point query (both against the original path), returns the cross-file error
exactly when the two mapped endpoints lie in different files, and on success
replaces the path and both endpoints in place with their translated values,
preserving the character columns. -/
theorem c7_map_range_cross_file (sm : FiascoSourceMapping)
    (direction : MapDirection) (path : Str) (range : Range) :
    ((sm.map_range direction path range).ok = false ↔
      (sm.map direction path range.start.line range.start.character).path ≠
        (sm.map direction path range.stop.line range.stop.character).path)
    ∧ ((sm.map_range direction path range).ok = true →
        sm.map_range direction path range =
          ⟨true,
            (sm.map direction path range.start.line range.start.character).path,
            ⟨⟨(sm.map direction path range.start.line range.start.character).line,
                range.start.character⟩,
              ⟨(sm.map direction path range.stop.line range.stop.character).line,
                range.stop.character⟩⟩⟩) := by
  have hs := map_character_eq sm direction path range.start.line range.start.character
  have he := map_character_eq sm direction path range.stop.line range.stop.character
  simp only [FiascoSourceMapping.map_range]
  by_cases h : (sm.map direction path range.start.line range.start.character).path =
      (sm.map direction path range.stop.line range.stop.character).path
  · simp [h, hs, he]
  · simp [h]

/-- C7 witness: on the empty mapping both endpoints map to the same (input)
file, so `map_range` succeeds and rewrites the range with the identity
translation. -/
theorem c7_witness :
    FiascoSourceMapping.map_range ⟨[], []⟩ .fromPreprocess "p".toList
      ⟨⟨1, 2⟩, ⟨3, 4⟩⟩ = ⟨true, "p".toList, ⟨⟨1, 2⟩, ⟨3, 4⟩⟩⟩ := by
  have h := (c7_map_range_cross_file ⟨[], []⟩ .fromPreprocess "p".toList
    ⟨⟨1, 2⟩, ⟨3, 4⟩⟩).2 (by decide)
  exact h.trans (by decide)

/-- C10: whenever `map_range` (and hence `map_range_uri` and `map_location`)
fails with the cross-file error, the path (resp. URI, location) and the range
are left exactly as given: no partially translated state is observable. -/
theorem c10_cross_file_no_mutation (sm : FiascoSourceMapping)
    (direction : MapDirection) (path uri : Str) (range : Range)
    (location : Location) :
    ((sm.map_range direction path range).ok = false →
      (sm.map_range direction path range).path = path ∧
      (sm.map_range direction path range).range = range)
    ∧ ((sm.map_range_uri direction uri range).ok = false →
      (sm.map_range_uri direction uri range).path = uri ∧
      (sm.map_range_uri direction uri range).range = range)
    ∧ ((sm.map_location direction location).ok = false →
      (sm.map_location direction location).location = location) := by
  refine ⟨?_, ?_, ?_⟩
  · intro h
    simp only [FiascoSourceMapping.map_range] at *
    by_cases hp : (sm.map direction path range.start.line range.start.character).path =
        (sm.map direction path range.stop.line range.stop.character).path
    · simp [hp] at h
    · simp [hp]
  · intro h
    simp only [FiascoSourceMapping.map_range_uri, FiascoSourceMapping.map_range] at *
    by_cases hp : (sm.map direction uri range.start.line range.start.character).path =
        (sm.map direction uri range.stop.line range.stop.character).path
    · simp [hp] at h
    · simp [hp]
  · intro h
    simp only [FiascoSourceMapping.map_location, FiascoSourceMapping.map_range_uri,
      FiascoSourceMapping.map_range] at *
    by_cases hp : (sm.map direction location.uri location.range.start.line
        location.range.start.character).path =
        (sm.map direction location.uri location.range.stop.line
          location.range.stop.character).path
    · simp [hp] at h
    · simp [hp]

/-- A two-mapping file where line 0 maps into file `a` and line 1 maps into
file `b`: the canonical cross-file failure input. -/
def crossFileExample : FiascoSourceMapping :=
  ⟨[],
   [("p".toList,
     ⟨["a".toList, "b".toList],
      [⟨.none, 0, 0, "a".toList, 100⟩, ⟨.none, 1, 1, "b".toList, 200⟩],
      [], [], 1⟩)]⟩

/-- C10 witness: on `crossFileExample` the range `0:0 – 1:0` maps its
endpoints into different files, `map_range`/`map_range_uri`/`map_location`
fail, and the inputs are returned untouched. -/
theorem c10_witness :
    (crossFileExample.map_range .fromPreprocess "p".toList
        ⟨⟨0, 0⟩, ⟨1, 0⟩⟩).path = "p".toList ∧
    (crossFileExample.map_range .fromPreprocess "p".toList
        ⟨⟨0, 0⟩, ⟨1, 0⟩⟩).range = ⟨⟨0, 0⟩, ⟨1, 0⟩⟩ ∧
    (crossFileExample.map_location .fromPreprocess
        ⟨"p".toList, ⟨⟨0, 0⟩, ⟨1, 0⟩⟩⟩).location = ⟨"p".toList, ⟨⟨0, 0⟩, ⟨1, 0⟩⟩⟩ := by
  have h := c10_cross_file_no_mutation crossFileExample .fromPreprocess
    "p".toList "p".toList ⟨⟨0, 0⟩, ⟨1, 0⟩⟩ ⟨"p".toList, ⟨⟨0, 0⟩, ⟨1, 0⟩⟩⟩
  exact ⟨(h.1 (by decide)).1, (h.1 (by decide)).2, h.2.2 (by decide)⟩

/-- C1: `LineMapping::contains` accepts a line equal to `src_end_line` even
though that field is documented `// Exclusive` in the source; consequently
the point query translates a line equal to a mapping's exclusive end through
that mapping instead of falling through.  Evaluated at the failing input: a
single mapping with `src_line = 5`, `src_end_line = 10` (exclusive, so line
10 should be outside it) translating into file `a` at `dst_line = 100`; the
query for line 10 is answered `(a, 105)` instead of passing through
unchanged. -/
theorem c1_contains_inclusive_eval :
    LineMapping.contains ⟨.none, 5, 10, "a".toList, 100⟩ 10 = true ∧
    FiascoSourceMapping.map
        ⟨[], [("p".toList,
          ⟨["a".toList], [⟨.none, 5, 10, "a".toList, 100⟩], [], [], 10⟩)]⟩
        .fromPreprocess "p".toList 10 7 = ⟨"a".toList, 105, 7⟩ ∧
    FiascoSourceMapping.map
        ⟨[], [("p".toList,
          ⟨["a".toList], [⟨.none, 5, 10, "a".toList, 100⟩], [], [], 10⟩)]⟩
        .fromPreprocess "p".toList 10 7 ≠ ⟨"p".toList, 10, 7⟩ := by
  refine ⟨by decide, by decide, by decide⟩

/-- On a section list that is sorted and strictly non-overlapping (the state
established by `sort()` and asserted by `check()` in the source, with
well-formed ranges), the last mapping whose `src_line` is at or before the
queried line contains the line as soon as some mapping of the list does. -/
theorem takeWhile_getLast_contains (line : Nat) (lst : List LineMapping)
    (hpair : lst.Pairwise (fun a b => a.src_end_line ≤ b.src_line))
    (hwf : ∀ x ∈ lst, x.src_line ≤ x.src_end_line)
    (m : LineMapping) (hm : m ∈ lst) (hc : m.contains line = true) :
    ∃ f, (lst.takeWhile (fun l => decide (line ≥ l.src_line))).getLast? =
        Option.some f ∧ f.contains line = true ∧ f ∈ lst := by
  induction lst with
  | nil => cases hm
  | cons x xs ih =>
    have hcm : line ≥ m.src_line ∧ line ≤ m.src_end_line := by
      simpa [LineMapping.contains] using hc
    by_cases hx : line ≥ x.src_line
    · rw [List.takeWhile_cons_of_pos (by simpa using hx)]
      rcases List.mem_cons.1 hm with rfl | hmxs
      · cases hLast : (xs.takeWhile (fun l => decide (line ≥ l.src_line))).getLast? with
        | none =>
          have h0 : xs.takeWhile (fun l => decide (line ≥ l.src_line)) = [] :=
            List.getLast?_eq_none_iff.1 hLast
          exact ⟨m, by simp [h0], hc, List.mem_cons_self _ _⟩
        | some f' =>
          have hfmem' : f' ∈ xs.takeWhile (fun l => decide (line ≥ l.src_line)) :=
            List.mem_of_mem_getLast? (hLast ▸ rfl)
          have hfxs : f' ∈ xs := List.takeWhile_subset _ hfmem'
          have hpf : line ≥ f'.src_line := by simpa using List.mem_takeWhile_imp hfmem'
          have hxe : m.src_end_line ≤ f'.src_line := (List.pairwise_cons.1 hpair).1 f' hfxs
          have hwff : f'.src_line ≤ f'.src_end_line := hwf f' (List.mem_cons_of_mem _ hfxs)
          have hne : xs.takeWhile (fun l => decide (line ≥ l.src_line)) ≠ [] := by
            intro h0; rw [h0] at hLast; cases hLast
          refine ⟨f', ?_, ?_, List.mem_cons_of_mem _ hfxs⟩
          · rw [show m :: xs.takeWhile (fun l => decide (line ≥ l.src_line)) =
              [m] ++ xs.takeWhile (fun l => decide (line ≥ l.src_line)) from rfl,
              List.getLast?_append_of_ne_nil _ hne, hLast]
          · simp only [LineMapping.contains, ge_iff_le, Bool.and_eq_true, decide_eq_true_eq]
            omega
      · have hpxs := (List.pairwise_cons.1 hpair).2
        have hwxs : ∀ y ∈ xs, y.src_line ≤ y.src_end_line := fun y hy =>
          hwf y (List.mem_cons_of_mem _ hy)
        obtain ⟨f, hf, hfc, hfm⟩ := ih hpxs hwxs hmxs
        have hne : xs.takeWhile (fun l => decide (line ≥ l.src_line)) ≠ [] := by
          intro h0; rw [h0] at hf; cases hf
        refine ⟨f, ?_, hfc, List.mem_cons_of_mem _ hfm⟩
        rw [show x :: xs.takeWhile (fun l => decide (line ≥ l.src_line)) =
          [x] ++ xs.takeWhile (fun l => decide (line ≥ l.src_line)) from rfl,
          List.getLast?_append_of_ne_nil _ hne, hf]
    · exfalso
      rcases List.mem_cons.1 hm with rfl | hmxs
      · exact hx hcm.1
      · have hxe : x.src_end_line ≤ m.src_line := (List.pairwise_cons.1 hpair).1 m hmxs
        have hwx : x.src_line ≤ x.src_end_line := hwf x (List.mem_cons_self _ _)
        omega

/-- `find_mapping` returns the unique containing mapping of a sorted,
non-overlapping section list. -/
theorem find_mapping_eq_of_contains (lm : LineMappings) (path : Str)
    (line : Nat) (sec : PreprocessSection) (mappings : FileLineMappings)
    (hlook : alookup lm path = Option.some mappings)
    (hpair : (mappings.get sec).Pairwise (fun a b => a.src_end_line ≤ b.src_line))
    (hwf : ∀ x ∈ mappings.get sec, x.src_line ≤ x.src_end_line)
    (m : LineMapping) (hm : m ∈ mappings.get sec) (hc : m.contains line = true)
    (huniq : ∀ m' ∈ mappings.get sec, m'.contains line = true → m' = m) :
    find_mapping lm path line sec = Option.some m := by
  obtain ⟨f, hf, hfc, hfm⟩ :=
    takeWhile_getLast_contains line (mappings.get sec) hpair hwf m hm hc
  have hfeq : f = m := huniq f hfm hfc
  subst hfeq
  unfold find_mapping
  rw [hlook]
  simp only [partitionPoint]
  have hne : (mappings.get sec).takeWhile (fun l => decide (line ≥ l.src_line)) ≠ [] := by
    intro h0; rw [h0] at hf; cases hf
  have hpos :
      0 < ((mappings.get sec).takeWhile (fun l => decide (line ≥ l.src_line))).length :=
    List.length_pos.2 hne
  have hgen : ∀ (tw t lst : List LineMapping), tw ++ t = lst → tw ≠ [] →
      lst[tw.length - 1]? = tw.getLast? := by
    intro tw t lst ht hne'
    subst ht
    rw [List.getElem?_append, if_pos (by have := List.length_pos.2 hne'; omega),
      ← List.getLast?_eq_getElem?]
  obtain ⟨t, ht⟩ :=
    List.takeWhile_prefix (l := mappings.get sec) (fun l => decide (line ≥ l.src_line))
  have hidx := hgen _ t _ ht hne
  simp only [hpos, if_pos hpos, hidx, hf, hfc, if_pos]

/-- A successful `find_mapping` returns a member of the queried section
list that contains the line. -/
theorem find_mapping_some_spec (lm : LineMappings) (path : Str) (line : Nat)
    (sec : PreprocessSection) (m : LineMapping)
    (h : find_mapping lm path line sec = Option.some m) :
    ∃ mappings, alookup lm path = Option.some mappings ∧
      m ∈ mappings.get sec ∧ m.contains line = true := by
  unfold find_mapping at h
  split at h
  · cases h
  · rename_i mappings hlook
    dsimp only at h
    split at h
    · split at h
      · rename_i mp hget
        split at h
        · rename_i hcont
          cases h
          exact ⟨mappings, hlook, List.getElem?_mem hget, hcont⟩
        · cases h
      · cases h
    · cases h

/-- When no mapping of the queried section contains the line,
`find_mapping` finds nothing. -/
theorem find_mapping_eq_none_of_no_contains (lm : LineMappings) (path : Str)
    (line : Nat) (sec : PreprocessSection)
    (h : ∀ mappings, alookup lm path = Option.some mappings →
      ∀ m ∈ mappings.get sec, m.contains line = false) :
    find_mapping lm path line sec = Option.none := by
  cases hf : find_mapping lm path line sec with
  | none => rfl
  | some m =>
    obtain ⟨mappings, hlook, hmem, hcont⟩ := find_mapping_some_spec _ _ _ _ _ hf
    have hfalse := h mappings hlook m hmem
    rw [hcont] at hfalse
    cases hfalse

/-- C9: the point query consults the section lists in the fixed order
Implementation, Interface, None, and the first section containing the line
decides the result (under the invariants established by `sort()` and
asserted by `check()`: per-section sorted, non-overlapping, well-formed
lists with a unique containing mapping).  In particular a line covered both
by an Interface and an Implementation mapping receives the Implementation
image; a line covered by Interface and None receives the Interface image; a
line covered only by None receives its image; and a line covered by no
section is returned unchanged. -/
theorem c9_section_priority (sm : FiascoSourceMapping)
    (direction : MapDirection) (path : Str) (line character : Nat)
    (mappings : FileLineMappings)
    (hlook : alookup (sm.get direction) path = Option.some mappings) :
    (∀ mi ∈ mappings.implementation, mi.contains line = true →
      mappings.implementation.Pairwise (fun a b => a.src_end_line ≤ b.src_line) →
      (∀ x ∈ mappings.implementation, x.src_line ≤ x.src_end_line) →
      (∀ m' ∈ mappings.implementation, m'.contains line = true → m' = mi) →
      sm.map direction path line character =
        ⟨mi.dst_file, mi.dst_line + (line - mi.src_line), character⟩)
    ∧ ((∀ m' ∈ mappings.implementation, m'.contains line = false) →
      ∀ mi ∈ mappings.interface, mi.contains line = true →
      mappings.interface.Pairwise (fun a b => a.src_end_line ≤ b.src_line) →
      (∀ x ∈ mappings.interface, x.src_line ≤ x.src_end_line) →
      (∀ m' ∈ mappings.interface, m'.contains line = true → m' = mi) →
      sm.map direction path line character =
        ⟨mi.dst_file, mi.dst_line + (line - mi.src_line), character⟩)
    ∧ ((∀ m' ∈ mappings.implementation, m'.contains line = false) →
      (∀ m' ∈ mappings.interface, m'.contains line = false) →
      ∀ mn ∈ mappings.none, mn.contains line = true →
      mappings.none.Pairwise (fun a b => a.src_end_line ≤ b.src_line) →
      (∀ x ∈ mappings.none, x.src_line ≤ x.src_end_line) →
      (∀ m' ∈ mappings.none, m'.contains line = true → m' = mn) →
      sm.map direction path line character =
        ⟨mn.dst_file, mn.dst_line + (line - mn.src_line), character⟩)
    ∧ ((∀ m' ∈ mappings.implementation, m'.contains line = false) →
      (∀ m' ∈ mappings.interface, m'.contains line = false) →
      (∀ m' ∈ mappings.none, m'.contains line = false) →
      sm.map direction path line character = ⟨path, line, character⟩) := by
  have hnone : ∀ sec : PreprocessSection,
      (∀ m' ∈ mappings.get sec, m'.contains line = false) →
      find_mapping (sm.get direction) path line sec = Option.none := by
    intro sec hsec
    refine find_mapping_eq_none_of_no_contains _ _ _ _ ?_
    intro ms hms m hm
    rw [hlook] at hms
    cases hms
    exact hsec m hm
  refine ⟨?_, ?_, ?_, ?_⟩
  · intro mi hmem hcont hpair hwf huniq
    have hfind : find_mapping (sm.get direction) path line .implementation =
        Option.some mi :=
      find_mapping_eq_of_contains _ _ line .implementation mappings hlook hpair
        hwf mi hmem hcont huniq
    simp [FiascoSourceMapping.map, hfind, Option.orElse]
  · intro himpl mi hmem hcont hpair hwf huniq
    have h1 : find_mapping (sm.get direction) path line .implementation =
        Option.none := hnone .implementation himpl
    have hfind : find_mapping (sm.get direction) path line .interface =
        Option.some mi :=
      find_mapping_eq_of_contains _ _ line .interface mappings hlook hpair
        hwf mi hmem hcont huniq
    simp [FiascoSourceMapping.map, h1, hfind, Option.orElse]
  · intro himpl hintf mn hmem hcont hpair hwf huniq
    have h1 : find_mapping (sm.get direction) path line .implementation =
        Option.none := hnone .implementation himpl
    have h2 : find_mapping (sm.get direction) path line .interface =
        Option.none := hnone .interface hintf
    have hfind : find_mapping (sm.get direction) path line .none =
        Option.some mn :=
      find_mapping_eq_of_contains _ _ line .none mappings hlook hpair
        hwf mn hmem hcont huniq
    simp [FiascoSourceMapping.map, h1, h2, hfind, Option.orElse]
  · intro himpl hintf hn
    have h1 : find_mapping (sm.get direction) path line .implementation =
        Option.none := hnone .implementation himpl
    have h2 : find_mapping (sm.get direction) path line .interface =
        Option.none := hnone .interface hintf
    have h3 : find_mapping (sm.get direction) path line .none =
        Option.none := hnone .none hn
    simp [FiascoSourceMapping.map, h1, h2, h3, Option.orElse]

/-- A preprocessed file `p` whose lines 0–5 carry an implementation mapping
(into `j`), lines 0–10 an interface mapping (into `i`) and lines 0–20 a
none-section mapping (into `n`). -/
def c9Example : FiascoSourceMapping :=
  ⟨[], [("p".toList,
    ⟨["j".toList, "i".toList, "n".toList],
     [⟨.none, 0, 20, "n".toList, 300⟩],
     [⟨.interface, 0, 10, "i".toList, 10⟩],
     [⟨.implementation, 0, 5, "j".toList, 50⟩], 20⟩)]⟩

/-- C9 witness: on `c9Example`, line 3 (covered by all three sections) gets
the implementation image, line 8 (interface and none) the interface image,
line 15 (none only) the none image, and line 25 passes through unchanged. -/
theorem c9_priority_witness :
    FiascoSourceMapping.map c9Example .fromPreprocess "p".toList 3 4 =
      ⟨"j".toList, 53, 4⟩ ∧
    FiascoSourceMapping.map c9Example .fromPreprocess "p".toList 8 4 =
      ⟨"i".toList, 18, 4⟩ ∧
    FiascoSourceMapping.map c9Example .fromPreprocess "p".toList 15 4 =
      ⟨"n".toList, 315, 4⟩ ∧
    FiascoSourceMapping.map c9Example .fromPreprocess "p".toList 25 4 =
      ⟨"p".toList, 25, 4⟩ := by
  refine ⟨?_, ?_, ?_, ?_⟩
  · have h := (c9_section_priority c9Example .fromPreprocess "p".toList 3 4
      ⟨["j".toList, "i".toList, "n".toList],
       [⟨.none, 0, 20, "n".toList, 300⟩],
       [⟨.interface, 0, 10, "i".toList, 10⟩],
       [⟨.implementation, 0, 5, "j".toList, 50⟩], 20⟩ (by decide)).1
      ⟨.implementation, 0, 5, "j".toList, 50⟩
      (by decide) (by decide) (by decide) (by decide) (by decide)
    exact h.trans (by decide)
  · have h := (c9_section_priority c9Example .fromPreprocess "p".toList 8 4
      ⟨["j".toList, "i".toList, "n".toList],
       [⟨.none, 0, 20, "n".toList, 300⟩],
       [⟨.interface, 0, 10, "i".toList, 10⟩],
       [⟨.implementation, 0, 5, "j".toList, 50⟩], 20⟩ (by decide)).2.1
      (by decide)
      ⟨.interface, 0, 10, "i".toList, 10⟩
      (by decide) (by decide) (by decide) (by decide) (by decide)
    exact h.trans (by decide)
  · have h := (c9_section_priority c9Example .fromPreprocess "p".toList 15 4
      ⟨["j".toList, "i".toList, "n".toList],
       [⟨.none, 0, 20, "n".toList, 300⟩],
       [⟨.interface, 0, 10, "i".toList, 10⟩],
       [⟨.implementation, 0, 5, "j".toList, 50⟩], 20⟩ (by decide)).2.2.1
      (by decide) (by decide)
      ⟨.none, 0, 20, "n".toList, 300⟩
      (by decide) (by decide) (by decide) (by decide) (by decide)
    exact h.trans (by decide)
  · have h := (c9_section_priority c9Example .fromPreprocess "p".toList 25 4
      ⟨["j".toList, "i".toList, "n".toList],
       [⟨.none, 0, 20, "n".toList, 300⟩],
       [⟨.interface, 0, 10, "i".toList, 10⟩],
       [⟨.implementation, 0, 5, "j".toList, 50⟩], 20⟩ (by decide)).2.2.2
      (by decide) (by decide) (by decide)
    exact h.trans (by decide)

/-- The character class of `NAME_REPLACE_RE`, the regex `[+-.]` from
src/source_mapping.rs: inside a character class, `+-.` denotes the range
from `'+'` (0x2B) to `'.'` (0x2E), i.e. the four characters `+`, `,`, `-`,
`.`. -/
def nameReplaceClass (c : Char) : Bool := '+' ≤ c && c ≤ '.'

/-- `Regex::replace` with a single-character pattern: only the first match
is replaced (`replace`, as opposed to `replace_all`). -/
def replaceFirst (p : Char → Bool) (rep : Char) : Str → Str
  | [] => []
  | c :: cs => if p c then rep :: cs else c :: replaceFirst p rep cs

/-- `NAME_REPLACE_RE.replace(name, "_")` from `extract_line_mappings`. -/
def sanitizeName (name : Str) : Str := replaceFirst nameReplaceClass '_' name

/-- The `endif_pattern` of `extract_line_mappings`:
`format!("#endif // {}", NAME_REPLACE_RE.replace(name, "_"))`. -/
def endifPattern (name : Str) : Str := "#endif // ".toList ++ sanitizeName name

/-- Strip a literal off the front of a string, the matching step for the
anchored literal parts of `LINE_REF_RE`. -/
def stripLit : Str → Str → Option Str
  | [], s => Option.some s
  | _ :: _, [] => Option.none
  | p :: ps, c :: cs => if p = c then stripLit ps cs else Option.none

/-- Numeric value of a digit string. -/
def digitsToNat (ds : Str) : Nat :=
  ds.foldl (fun a c => a * 10 + (c.toNat - '0'.toNat)) 0

/-- `cap[1].parse::<u32>().unwrap_or(1)` from `extract_line_mappings`:
parsing the digit capture fails — yielding the default 1 — exactly when the
value overflows `u32`. -/
def parseU32Or1 (ds : Str) : Nat :=
  if digitsToNat ds < 2 ^ 32 then digitsToNat ds else 1

/-- `LINE_REF_RE.captures(line)` for the regex `^#line (\d+) "(.+)"$` from
src/source_mapping.rs, returning the two captures.  The `(\d+)` capture is
the maximal digit run after `#line ` (backtracking cannot shorten it, since
the regex requires the following character to be a space, never a digit);
the greedy `(.+)` capture followed by `"$` takes everything up to the final
character of the line, which must be `"`, with a nonempty body.  Lines
produced by `BufRead::lines` contain no newline, so `.` matches every body
character. -/
def lineRefCapture (line : Str) : Option (Str × Str) :=
  match stripLit "#line ".toList line with
  | Option.none => Option.none
  | Option.some rest =>
    let ds := rest.takeWhile Char.isDigit
    let rest2 := rest.dropWhile Char.isDigit
    if ds = [] then Option.none
    else
      match stripLit " \"".toList rest2 with
      | Option.none => Option.none
      | Option.some rest3 =>
        if 2 ≤ rest3.length ∧ rest3.getLast? = Option.some '"' then
          Option.some (ds, rest3.dropLast)
        else Option.none

/-- `mappings.last_mut()` updates: apply `f` to the last element, if any. -/
def modifyLast (f : LineMapping → LineMapping) : List LineMapping → List LineMapping
  | [] => []
  | [m] => [f m]
  | m :: m' :: ms => m :: modifyLast f (m' :: ms)

/-- Loop state of `extract_line_mappings` from src/source_mapping.rs:
current section, mappings collected so far, last enumerate index seen
(`ln`), the injected-lines adjustment (`ln_offset`), and whether the
`#endif` envelope marker has broken out of the loop. -/
structure ExtractState where
  cur_section : PreprocessSection
  mappings : List LineMapping
  ln : Nat
  ln_offset : Nat
  stopped : Bool
deriving DecidableEq, Repr

/-- One iteration of the `for (l, r) in lines` loop of
`extract_line_mappings`.  An `Err` line (`r` = `none`) only updates `ln`.
The `u32` casts of the source are kept (`asU32`); `u32`/`usize`
subtractions are `Nat` truncated subtraction, faithful except where the
Rust code would underflow and panic — those spots are excluded by
hypotheses in the theorems below. -/
def extractStep (endifPat : Str) (st : ExtractState) (entry : Nat × Option Str) :
    ExtractState :=
  if st.stopped then st
  else
    let l := entry.1
    let st := { st with ln := l }
    match entry.2 with
    | Option.none => st
    | Option.some line =>
      match lineRefCapture line with
      | Option.some (ds, path) =>
        { st with
          mappings :=
            modifyLast (fun m =>
              { m with src_end_line := max m.src_line (asU32 l - st.ln_offset - 1) })
              st.mappings
            ++ [⟨st.cur_section, asU32 (asU32 l + 1), 0, path, parseU32Or1 ds - 1⟩],
          ln_offset := 0 }
      | Option.none =>
        if "// INTERFACE".toList.isPrefixOf line then
          { st with
            cur_section := PreprocessSection.interface,
            mappings := modifyLast (fun m => { m with src_end_line := asU32 l })
              st.mappings,
            ln_offset := 5 }
        else if "// IMPLEMENTATION".toList.isPrefixOf line then
          { st with
            cur_section := PreprocessSection.implementation,
            mappings := modifyLast (fun m => { m with src_end_line := asU32 l })
              st.mappings,
            ln_offset := 5 }
        else if "private: // EXTENSION".toList.isPrefixOf line then
          { st with ln_offset := 3 }
        else if endifPat.isPrefixOf line then
          { st with ln := l - 1, stopped := true }
        else st

/-- Initial loop state of `extract_line_mappings`. -/
def extractInit : ExtractState := ⟨.none, [], 0, 0, false⟩

/-- `extract_line_mappings` from src/source_mapping.rs: run the marker state
machine over the enumerated lines (`Err` lines modeled as `none`), then
close the last mapping at `ln as u32 - ln_offset`. -/
def extract_line_mappings (name : Str) (lines : List (Nat × Option Str)) :
    List LineMapping :=
  let st := lines.foldl (extractStep (endifPattern name)) extractInit
  modifyLast (fun m => { m with src_end_line := asU32 st.ln - st.ln_offset })
    st.mappings

/-- C8: every line matching `#line N "PATH"` closes the previous mapping (if
one exists) at `max(src_start, current_line − adjustment − 1)`, opens a new
mapping with the current section, `src_start = current_line + 1`,
`dst_file = PATH` and `dst_start = N − 1`, and resets the adjustment counter
to 0 (`ln` advances to the current line as for every iteration). -/
theorem c8_line_directive (name : Str) (st : ExtractState) (l : Nat)
    (line ds path : Str)
    (hstop : st.stopped = false)
    (hcap : lineRefCapture line = Option.some (ds, path))
    (hl : l + 1 < 2 ^ 32)
    (_hoff : st.ln_offset + 1 ≤ l)
    (_hn1 : 1 ≤ digitsToNat ds) (hn2 : digitsToNat ds < 2 ^ 32) :
    extractStep (endifPattern name) st (l, Option.some line) =
      { st with
        mappings :=
          modifyLast (fun m =>
            { m with src_end_line := max m.src_line (l - st.ln_offset - 1) })
            st.mappings
          ++ [⟨st.cur_section, l + 1, 0, path, digitsToNat ds - 1⟩],
        ln := l,
        ln_offset := 0 } := by
  have ha : asU32 l = l := Nat.mod_eq_of_lt (by omega)
  have hb : asU32 (l + 1) = l + 1 := Nat.mod_eq_of_lt hl
  simp only [extractStep, hstop, hcap, parseU32Or1, ha, hb, Bool.false_eq_true,
    if_false]
  rw [if_pos hn2]

/-- C8 witness: a `#line 7 "b.cpp"` directive at enumerate index 9, with a
pending adjustment of 1, closes the open mapping at line 7 and opens
`(interface, 10, b.cpp, 6)`. -/
theorem c8_witness :
    extractStep (endifPattern "x.cpp".toList)
      ⟨.interface, [⟨.none, 1, 0, "a".toList, 4⟩], 3, 1, false⟩
      (9, Option.some "#line 7 \"b.cpp\"".toList) =
      ⟨.interface,
        [⟨.none, 1, 7, "a".toList, 4⟩, ⟨.interface, 10, 0, "b.cpp".toList, 6⟩],
        9, 0, false⟩ := by
  have h := c8_line_directive "x.cpp".toList
    ⟨.interface, [⟨.none, 1, 0, "a".toList, 4⟩], 3, 1, false⟩
    9 "#line 7 \"b.cpp\"".toList "7".toList "b.cpp".toList
    rfl (by decide) (by decide) (by decide) (by decide) (by decide)
  exact h.trans (by decide)

/-- The sanitization as claim C4 words it: every occurrence of each of the
characters `+`, `-`, `.` (and only these) replaced by `_`. -/
def claimSanitize (name : Str) : Str :=
  name.map (fun c => if c = '+' ∨ c = '-' ∨ c = '.' then '_' else c)

/-- C4 counterexample.  (a) For the base name `a+b.cpp` the claim's
sanitization yields `a_b_cpp`, but the code's `NAME_REPLACE_RE.replace`
replaces only the first matching character, producing `a_b.cpp`; hence a
line beginning with `#endif // a_b_cpp` (the claim's marker) does not stop
parsing, and the last mapping is closed at the final line index 2 instead of
at 2 − 1 = 1 as the claim requires.  (b) Even a matching `#endif` marker
closes the last mapping at `current_line − 1 − adjustment`, not at
`current_line − 1`: with a pending `private: // EXTENSION` adjustment of 3,
the `#endif` at index 8 closes the mapping at 4, not at 7. -/
theorem c4_counterexample :
    claimSanitize "a+b.cpp".toList = "a_b_cpp".toList ∧
    sanitizeName "a+b.cpp".toList = "a_b.cpp".toList ∧
    List.isPrefixOf ("#endif // ".toList ++ claimSanitize "a+b.cpp".toList)
      "#endif // a_b_cpp".toList = true ∧
    extract_line_mappings "a+b.cpp".toList
      [(0, Option.some "#line 7 \"x.cpp\"".toList),
       (1, Option.some "content".toList),
       (2, Option.some "#endif // a_b_cpp".toList)] =
      [⟨.none, 1, 2, "x.cpp".toList, 6⟩] ∧
    extract_line_mappings "a+b.cpp".toList
      [(0, Option.some "#line 7 \"x.cpp\"".toList),
       (1, Option.some "content".toList),
       (2, Option.some "#endif // a_b_cpp".toList)] ≠
      [⟨.none, 1, 1, "x.cpp".toList, 6⟩] ∧
    List.isPrefixOf (endifPattern "x".toList) "#endif // x".toList = true ∧
    extract_line_mappings "x".toList
      [(0, Option.some "#line 5 \"f\"".toList),
       (1, Option.some "c1".toList),
       (2, Option.some "c2".toList),
       (3, Option.some "c3".toList),
       (4, Option.some "private: // EXTENSION".toList),
       (5, Option.some "c4".toList),
       (6, Option.some "c5".toList),
       (7, Option.some "c6".toList),
       (8, Option.some "#endif // x".toList)] =
      [⟨.none, 1, 4, "f".toList, 4⟩] ∧
    extract_line_mappings "x".toList
      [(0, Option.some "#line 5 \"f\"".toList),
       (1, Option.some "c1".toList),
       (2, Option.some "c2".toList),
       (3, Option.some "c3".toList),
       (4, Option.some "private: // EXTENSION".toList),
       (5, Option.some "c4".toList),
       (6, Option.some "c5".toList),
       (7, Option.some "c6".toList),
       (8, Option.some "#endif // x".toList)] ≠
      [⟨.none, 1, 7, "f".toList, 4⟩] := by
  refine ⟨by decide, by decide, by decide, by decide, by decide, by decide,
    by decide, by decide⟩

/-- After the `#endif` marker breaks out of the loop, the remaining lines do
not change the state. -/
theorem foldl_extractStep_stopped (pat : Str) (st : ExtractState)
    (h : st.stopped = true) (lines : List (Nat × Option Str)) :
    lines.foldl (extractStep pat) st = st := by
  induction lines with
  | nil => rfl
  | cons x xs ih =>
    rw [List.foldl_cons, show extractStep pat st x = st from by simp [extractStep, h]]
    exact ih

/-- C4 (amended): when a line is read that begins with `#endif // S`, where
S is the file's base name with the first occurrence of a character of the
class `[+-.]` (the range `+`, `,`, `-`, `.`) replaced by `_`, parsing stops
(the remaining lines are ignored) and the last mapping's exclusive end is
set to `current_line − 1 − adjustment`, the pending injected-lines counter
being subtracted along the way. -/
theorem c4_amended (name : Str) (pre rest : List (Nat × Option Str))
    (l : Nat) (line : Str)
    (hstop : (pre.foldl (extractStep (endifPattern name)) extractInit).stopped = false)
    (hpref : (endifPattern name).isPrefixOf line = true)
    (hoff : (pre.foldl (extractStep (endifPattern name)) extractInit).ln_offset + 1 ≤ l)
    (hl : l < 2 ^ 32) :
    extract_line_mappings name (pre ++ (l, Option.some line) :: rest) =
      modifyLast (fun m =>
        { m with src_end_line :=
            l - 1 - (pre.foldl (extractStep (endifPattern name)) extractInit).ln_offset })
        (pre.foldl (extractStep (endifPattern name)) extractInit).mappings := by
  obtain ⟨t, ht⟩ := List.isPrefixOf_iff_prefix.1 hpref
  subst ht
  set st := pre.foldl (extractStep (endifPattern name)) extractInit with hst
  have h10 : "#endif // ".toList = ['#', 'e', 'n', 'd', 'i', 'f', ' ', '/', '/', ' '] := rfl
  have hline : endifPattern name ++ t =
      '#' :: 'e' :: ('n' :: 'd' :: 'i' :: 'f' :: ' ' :: '/' :: '/' :: ' ' ::
        (sanitizeName name ++ t)) := by
    simp [endifPattern, h10]
  have hcap : lineRefCapture (endifPattern name ++ t) = Option.none := by
    rw [hline]; rfl
  have hifc : ¬ ("// INTERFACE".toList <+: endifPattern name ++ t) := by
    rw [hline]
    rintro ⟨t2, ht2⟩
    simp at ht2
  have himp : ¬ ("// IMPLEMENTATION".toList <+: endifPattern name ++ t) := by
    rw [hline]
    rintro ⟨t2, ht2⟩
    simp at ht2
  have hext : ¬ ("private: // EXTENSION".toList <+: endifPattern name ++ t) := by
    rw [hline]
    rintro ⟨t2, ht2⟩
    simp at ht2
  simp only [show ("// INTERFACE".toList : Str) =
      ['/', '/', ' ', 'I', 'N', 'T', 'E', 'R', 'F', 'A', 'C', 'E'] from rfl] at hifc
  simp only [show ("// IMPLEMENTATION".toList : Str) =
      ['/', '/', ' ', 'I', 'M', 'P', 'L', 'E', 'M', 'E', 'N', 'T', 'A', 'T', 'I', 'O', 'N']
      from rfl] at himp
  simp only [show ("private: // EXTENSION".toList : Str) =
      ['p', 'r', 'i', 'v', 'a', 't', 'e', ':', ' ', '/', '/', ' ', 'E', 'X', 'T', 'E', 'N',
       'S', 'I', 'O', 'N'] from rfl] at hext
  have hstep : extractStep (endifPattern name) st (l, Option.some (endifPattern name ++ t)) =
      { st with ln := l - 1, stopped := true } := by
    simp [extractStep, hstop, hcap, hifc, himp, hext, hpref]
  unfold extract_line_mappings
  rw [List.foldl_append, List.foldl_cons, ← hst, hstep,
    foldl_extractStep_stopped _ _ rfl rest]
  have hm : asU32 (l - 1) = l - 1 := Nat.mod_eq_of_lt (by omega)
  simp [hm]

/-- C4 witness for the amended claim: a matching `#endif // x` at index 3
(no pending adjustment) stops parsing — the later `#line` is ignored — and
closes the mapping at 3 − 1 − 0 = 2. -/
theorem c4_witness :
    extract_line_mappings "x".toList
      [(0, Option.some "#line 5 \"f\"".toList),
       (3, Option.some "#endif // x".toList),
       (4, Option.some "#line 9 \"g\"".toList)] =
      [⟨.none, 1, 2, "f".toList, 4⟩] := by
  have h := c4_amended "x".toList [(0, Option.some "#line 5 \"f\"".toList)]
    [(4, Option.some "#line 9 \"g\"".toList)] 3 "#endif // x".toList
    (by decide) (by decide) (by decide) (by decide)
  exact h.trans (by decide)

/-- `Diagnostic` from lsp_types: the range plus an abstract payload
standing for all the other fields, which the handler clones verbatim. -/
structure Diagnostic where
  range : Range
  data : Nat
deriving DecidableEq, Repr

/-- `PublishDiagnosticsParams` from lsp_types; URIs are modeled by their
file path (`params.uri.path()`), `version` is passed through. -/
structure PublishDiagnosticsParams where
  uri : Str
  diagnostics : List Diagnostic
  version : Int
deriving DecidableEq, Repr

/-- `result.entry(file).or_insert(Vec::new()).push(d)`: append to the bucket
of `file`, creating the bucket if missing.  Rust's `HashMap` iterates in
arbitrary order; the model fixes first-insertion order, which the claims do
not depend on (they are stated via membership). -/
def bucketPush (acc : List (Str × List Diagnostic)) (file : Str)
    (d : Diagnostic) : List (Str × List Diagnostic) :=
  match acc with
  | [] => [(file, [d])]
  | (f, ds) :: rest =>
    if f = file then (f, ds ++ [d]) :: rest
    else (f, ds) :: bucketPush rest file d

/-- `handle_publish_diagnostics` from src/handler/diagnostics.rs for
file-scheme URIs: pass unknown preprocessed files through; bucket an
empty-range diagnostic under every contributing author file; translate a
non-empty-range diagnostic with `map_range` and bucket the translated
diagnostic under the resulting file, dropping it on failure; emit one
notification per bucket. -/
def handle_publish_diagnostics (sm : FiascoSourceMapping)
    (params : PublishDiagnosticsParams) : List PublishDiagnosticsParams :=
  let files := sm.map_files .fromPreprocess params.uri
  if files = [] then [params]
  else
    let buckets := params.diagnostics.foldl (fun acc d =>
      if d.range.start = d.range.stop then
        files.foldl (fun acc file => bucketPush acc file d) acc
      else
        if (sm.map_range .fromPreprocess params.uri d.range).ok then
          bucketPush acc (sm.map_range .fromPreprocess params.uri d.range).path
            { d with range := (sm.map_range .fromPreprocess params.uri d.range).range }
        else acc) []
    buckets.map (fun fd => ⟨fd.1, fd.2, params.version⟩)

/-- The per-author-file bucket contents as claim C6 words them: an
empty-range diagnostic is cloned into the bucket of every contributing
file, a non-empty-range diagnostic is translated `FromPreprocess` and lands
in the bucket of the file its translated range lies in, and is dropped when
the translation fails. -/
def c6SpecBucket (sm : FiascoSourceMapping) (params : PublishDiagnosticsParams)
    (file : Str) : List Diagnostic :=
  params.diagnostics.filterMap (fun d =>
    if d.range.start = d.range.stop then
      if file ∈ sm.map_files .fromPreprocess params.uri then Option.some d
      else Option.none
    else
      if (sm.map_range .fromPreprocess params.uri d.range).ok = true ∧
          (sm.map_range .fromPreprocess params.uri d.range).path = file then
        Option.some { d with range := (sm.map_range .fromPreprocess params.uri d.range).range }
      else Option.none)

/-- Bucket lookup after a push. -/
theorem bucketPush_alookup (acc : List (Str × List Diagnostic)) (file : Str)
    (d : Diagnostic) (f : Str) :
    alookup (bucketPush acc file d) f =
      if f = file then Option.some (((alookup acc file).getD []) ++ [d])
      else alookup acc f := by
  induction acc with
  | nil =>
    by_cases h : f = file
    · subst h; simp [bucketPush, alookup]
    · simp [bucketPush, alookup, h, Ne.symm h]
  | cons p rest ih =>
    obtain ⟨g, ds⟩ := p
    by_cases hg : g = file
    · subst hg
      by_cases hf : f = g
      · subst hf; simp [bucketPush, alookup]
      · simp [bucketPush, alookup, hf, Ne.symm hf]
    · by_cases hf : g = f
      · subst hf
        simp [bucketPush, alookup, hg, Ne.symm hg]
      · simp [bucketPush, alookup, hg, hf, ih]

/-- A push only ever extends buckets, so no bucket is empty. -/
theorem bucketPush_ne_nil (acc : List (Str × List Diagnostic)) (file : Str)
    (d : Diagnostic) (hacc : ∀ p ∈ acc, p.2 ≠ []) :
    ∀ p ∈ bucketPush acc file d, p.2 ≠ [] := by
  induction acc with
  | nil =>
    intro p hp
    simp [bucketPush] at hp
    subst hp; simp
  | cons q rest ih =>
    obtain ⟨g, ds⟩ := q
    intro p hp
    by_cases hg : g = file
    · simp [bucketPush, hg] at hp
      rcases hp with hp | hp
      · subst hp; simp
      · exact hacc p (List.mem_cons_of_mem _ hp)
    · simp [bucketPush, hg] at hp
      rcases hp with hp | hp
      · subst hp
        exact hacc (g, ds) (List.mem_cons_self _ _)
      · exact ih (fun q hq => hacc q (List.mem_cons_of_mem _ hq)) p hp

/-- Keys after a push: unchanged if the file already has a bucket, extended
by the file otherwise. -/
theorem bucketPush_keys (acc : List (Str × List Diagnostic)) (file : Str)
    (d : Diagnostic) :
    (bucketPush acc file d).map Prod.fst =
      if file ∈ acc.map Prod.fst then acc.map Prod.fst
      else acc.map Prod.fst ++ [file] := by
  induction acc with
  | nil => simp [bucketPush]
  | cons q rest ih =>
    obtain ⟨g, ds⟩ := q
    by_cases hg : g = file
    · subst hg; simp [bucketPush]
    · by_cases hmem : file ∈ rest.map Prod.fst
      · simp [bucketPush, hg, ih, hmem, Ne.symm hg]
      · simp [bucketPush, hg, ih, hmem, Ne.symm hg]

/-- Pushes preserve distinctness of bucket keys. -/
theorem bucketPush_keysNodup (acc : List (Str × List Diagnostic)) (file : Str)
    (d : Diagnostic) (h : (acc.map Prod.fst).Nodup) :
    ((bucketPush acc file d).map Prod.fst).Nodup := by
  rw [bucketPush_keys]
  by_cases hmem : file ∈ acc.map Prod.fst
  · simpa [hmem] using h
  · simp only [hmem, if_false]
    refine List.Nodup.append h (by simp) ?_
    intro a ha hb
    simp only [List.mem_singleton] at hb
    subst hb
    exact hmem ha


/-- Extend an optional bucket by additional diagnostics; `none` stands for
an absent bucket, which stays absent only when nothing is added. -/
def optExtend (o : Option (List Diagnostic)) (add : List Diagnostic) :
    Option (List Diagnostic) :=
  match o with
  | Option.none =>
    match add with
    | [] => Option.none
    | _ => Option.some add
  | Option.some l => Option.some (l ++ add)

theorem optExtend_nil (o : Option (List Diagnostic)) : optExtend o [] = o := by
  cases o <;> simp [optExtend]

theorem optExtend_cons (o : Option (List Diagnostic)) (d : Diagnostic)
    (rest : List Diagnostic) :
    optExtend (Option.some ((o.getD []) ++ [d])) rest = optExtend o (d :: rest) := by
  cases o <;> simp [optExtend]

/-- Bucket lookup after cloning a diagnostic into every file of a
duplicate-free file list. -/
theorem filesFold_alookup (files : List Str) (hnd : files.Nodup)
    (acc : List (Str × List Diagnostic)) (d : Diagnostic) (f : Str) :
    alookup (files.foldl (fun a file => bucketPush a file d) acc) f =
      if f ∈ files then Option.some (((alookup acc f).getD []) ++ [d])
      else alookup acc f := by
  induction files generalizing acc with
  | nil => simp
  | cons x xs ih =>
    simp only [List.foldl_cons]
    have hx : x ∉ xs := (List.nodup_cons.1 hnd).1
    rw [ih (List.nodup_cons.1 hnd).2]
    by_cases hf : f ∈ xs
    · have hfx : f ≠ x := fun h => hx (h ▸ hf)
      simp [hf, bucketPush_alookup, hfx]
    · by_cases hfx : f = x
      · subst hfx
        simp [hf, bucketPush_alookup]
      · simp [hf, hfx, bucketPush_alookup]

theorem filesFold_ne_nil (files : List Str)
    (acc : List (Str × List Diagnostic)) (d : Diagnostic)
    (hacc : ∀ p ∈ acc, p.2 ≠ []) :
    ∀ p ∈ files.foldl (fun a file => bucketPush a file d) acc, p.2 ≠ [] := by
  induction files generalizing acc with
  | nil => exact hacc
  | cons x xs ih =>
    simp only [List.foldl_cons]
    exact ih _ (bucketPush_ne_nil acc x d hacc)

theorem filesFold_keysNodup (files : List Str)
    (acc : List (Str × List Diagnostic)) (d : Diagnostic)
    (hacc : (acc.map Prod.fst).Nodup) :
    (((files.foldl (fun a file => bucketPush a file d) acc)).map Prod.fst).Nodup := by
  induction files generalizing acc with
  | nil => exact hacc
  | cons x xs ih =>
    simp only [List.foldl_cons]
    exact ih _ (bucketPush_keysNodup acc x d hacc)

/-- Bucket lookup after processing a list of diagnostics: the previous
bucket extended by exactly the diagnostics `c6SpecBucket` describes. -/
theorem diagFold_alookup (sm : FiascoSourceMapping) (uri : Str)
    (files : List Str) (hnd : files.Nodup) (ds : List Diagnostic)
    (acc : List (Str × List Diagnostic)) (f : Str) :
    alookup (ds.foldl (fun acc d =>
        if d.range.start = d.range.stop then
          files.foldl (fun acc file => bucketPush acc file d) acc
        else
          if (sm.map_range .fromPreprocess uri d.range).ok then
            bucketPush acc (sm.map_range .fromPreprocess uri d.range).path
              { d with range := (sm.map_range .fromPreprocess uri d.range).range }
          else acc) acc) f =
      optExtend (alookup acc f) (ds.filterMap (fun d =>
        if d.range.start = d.range.stop then
          if f ∈ files then Option.some d else Option.none
        else
          if (sm.map_range .fromPreprocess uri d.range).ok = true ∧
              (sm.map_range .fromPreprocess uri d.range).path = f then
            Option.some { d with range := (sm.map_range .fromPreprocess uri d.range).range }
          else Option.none)) := by
  induction ds generalizing acc with
  | nil => simp [optExtend_nil]
  | cons d ds ih =>
    simp only [List.foldl_cons]
    by_cases hempty : d.range.start = d.range.stop
    · by_cases hf : f ∈ files
      · rw [List.filterMap_cons_some (by rw [if_pos hempty, if_pos hf]),
          if_pos hempty, ih, filesFold_alookup files hnd acc d f, if_pos hf,
          optExtend_cons]
      · rw [List.filterMap_cons_none (by rw [if_pos hempty, if_neg hf]),
          if_pos hempty, ih, filesFold_alookup files hnd acc d f, if_neg hf]
    · by_cases hok : (sm.map_range .fromPreprocess uri d.range).ok = true
      · by_cases hp : (sm.map_range .fromPreprocess uri d.range).path = f
        · rw [List.filterMap_cons_some
            (by rw [if_neg hempty, if_pos (⟨hok, hp⟩ :
              (sm.map_range .fromPreprocess uri d.range).ok = true ∧
              (sm.map_range .fromPreprocess uri d.range).path = f)]),
            if_neg hempty, if_pos hok, ih, bucketPush_alookup, if_pos hp.symm, hp,
            optExtend_cons]
        · rw [List.filterMap_cons_none
            (by rw [if_neg hempty, if_neg (fun hc => hp hc.2)]),
            if_neg hempty, if_pos hok, ih, bucketPush_alookup,
            if_neg (fun hc => hp hc.symm)]
      · rw [List.filterMap_cons_none
          (by rw [if_neg hempty, if_neg (fun hc => hok hc.1)]),
          if_neg hempty, if_neg (fun hc : _ = true => hok hc), ih]

theorem diagFold_ne_nil (sm : FiascoSourceMapping) (uri : Str)
    (files : List Str) (ds : List Diagnostic)
    (acc : List (Str × List Diagnostic)) (hacc : ∀ p ∈ acc, p.2 ≠ []) :
    ∀ p ∈ ds.foldl (fun acc d =>
        if d.range.start = d.range.stop then
          files.foldl (fun acc file => bucketPush acc file d) acc
        else
          if (sm.map_range .fromPreprocess uri d.range).ok then
            bucketPush acc (sm.map_range .fromPreprocess uri d.range).path
              { d with range := (sm.map_range .fromPreprocess uri d.range).range }
          else acc) acc, p.2 ≠ [] := by
  induction ds generalizing acc with
  | nil => exact hacc
  | cons d ds ih =>
    simp only [List.foldl_cons]
    apply ih
    by_cases hempty : d.range.start = d.range.stop
    · rw [if_pos hempty]
      exact filesFold_ne_nil files acc d hacc
    · rw [if_neg hempty]
      by_cases hok : (sm.map_range .fromPreprocess uri d.range).ok = true
      · rw [if_pos hok]
        exact bucketPush_ne_nil _ _ _ hacc
      · rw [if_neg (fun hc : _ = true => hok hc)]
        exact hacc

theorem diagFold_keysNodup (sm : FiascoSourceMapping) (uri : Str)
    (files : List Str) (ds : List Diagnostic)
    (acc : List (Str × List Diagnostic)) (hacc : (acc.map Prod.fst).Nodup) :
    ((ds.foldl (fun acc d =>
        if d.range.start = d.range.stop then
          files.foldl (fun acc file => bucketPush acc file d) acc
        else
          if (sm.map_range .fromPreprocess uri d.range).ok then
            bucketPush acc (sm.map_range .fromPreprocess uri d.range).path
              { d with range := (sm.map_range .fromPreprocess uri d.range).range }
          else acc) acc).map Prod.fst).Nodup := by
  induction ds generalizing acc with
  | nil => exact hacc
  | cons d ds ih =>
    simp only [List.foldl_cons]
    apply ih
    by_cases hempty : d.range.start = d.range.stop
    · rw [if_pos hempty]
      exact filesFold_keysNodup files acc d hacc
    · rw [if_neg hempty]
      by_cases hok : (sm.map_range .fromPreprocess uri d.range).ok = true
      · rw [if_pos hok]
        exact bucketPush_keysNodup _ _ _ hacc
      · rw [if_neg (fun hc : _ = true => hok hc)]
        exact hacc

/-- Lookup of a present key, given distinct keys. -/
theorem alookup_eq_some_of_mem {α : Type} (l : List (Str × α))
    (hnd : (l.map Prod.fst).Nodup) (k : Str) (v : α) (h : (k, v) ∈ l) :
    alookup l k = Option.some v := by
  induction l with
  | nil => cases h
  | cons p rest ih =>
    obtain ⟨g, w⟩ := p
    rcases List.mem_cons.1 h with he | hmem
    · cases he
      simp [alookup]
    · have hg : g ≠ k := by
        intro hgk
        subst hgk
        exact (List.nodup_cons.1 hnd).1 (List.mem_map.2 ⟨(g, v), hmem, rfl⟩)
      simp [alookup, hg, ih (List.nodup_cons.1 hnd).2 hmem]

/-- A successful lookup means the pair is present. -/
theorem mem_of_alookup_eq_some {α : Type} (l : List (Str × α)) (k : Str)
    (v : α) (h : alookup l k = Option.some v) : (k, v) ∈ l := by
  induction l with
  | nil => cases h
  | cons p rest ih =>
    obtain ⟨g, w⟩ := p
    by_cases hg : g = k
    · subst hg
      simp [alookup] at h
      subst h
      exact List.mem_cons_self _ _
    · simp [alookup, hg] at h
      exact List.mem_cons_of_mem _ (ih h)

theorem optExtend_none_of_ne_nil (add : List Diagnostic) (h : add ≠ []) :
    optExtend Option.none add = Option.some add := by
  cases add with
  | nil => exact absurd rfl h
  | cons a as => rfl

/-- C6: for a `PublishDiagnostics` notification for a known preprocessed
file, every emitted notification carries exactly the bucket the claim
describes for its file (empty-range diagnostics cloned to all contributing
author files, non-empty-range diagnostics translated and bucketed by their
translated file or dropped), every non-empty described bucket is emitted,
the version is passed through, and there is one notification per file. -/
theorem c6_publish_diagnostics (sm : FiascoSourceMapping)
    (params : PublishDiagnosticsParams)
    (hne : sm.map_files .fromPreprocess params.uri ≠ [])
    (hnd : (sm.map_files .fromPreprocess params.uri).Nodup) :
    (∀ out ∈ handle_publish_diagnostics sm params,
      out.diagnostics = c6SpecBucket sm params out.uri ∧
      out.diagnostics ≠ [] ∧ out.version = params.version)
    ∧ (∀ file, c6SpecBucket sm params file ≠ [] →
        (⟨file, c6SpecBucket sm params file, params.version⟩ :
          PublishDiagnosticsParams) ∈ handle_publish_diagnostics sm params)
    ∧ ((handle_publish_diagnostics sm params).map
        PublishDiagnosticsParams.uri).Nodup := by
  have hbuck : ∀ f, alookup (params.diagnostics.foldl (fun acc d =>
      if d.range.start = d.range.stop then
        (sm.map_files .fromPreprocess params.uri).foldl
          (fun acc file => bucketPush acc file d) acc
      else
        if (sm.map_range .fromPreprocess params.uri d.range).ok then
          bucketPush acc (sm.map_range .fromPreprocess params.uri d.range).path
            { d with range := (sm.map_range .fromPreprocess params.uri d.range).range }
        else acc) []) f = optExtend Option.none (c6SpecBucket sm params f) :=
    fun f => diagFold_alookup sm params.uri _ hnd params.diagnostics [] f
  have hkeys := diagFold_keysNodup sm params.uri
    (sm.map_files .fromPreprocess params.uri) params.diagnostics []
    (by simp)
  have hnn := diagFold_ne_nil sm params.uri
    (sm.map_files .fromPreprocess params.uri) params.diagnostics []
    (by intro p hp; cases hp)
  simp only [handle_publish_diagnostics]
  rw [if_neg hne]
  refine ⟨?_, ?_, ?_⟩
  · intro out hout
    obtain ⟨fd, hfd, heq⟩ := List.mem_map.1 hout
    obtain ⟨bf, bds⟩ := fd
    subst heq
    have hl2 := alookup_eq_some_of_mem _ hkeys bf bds hfd
    rw [hbuck bf] at hl2
    cases hsf : c6SpecBucket sm params bf with
    | nil =>
      rw [hsf] at hl2
      cases hl2
    | cons a as =>
      rw [hsf, optExtend_none_of_ne_nil _ (by simp)] at hl2
      have hbd : bds = a :: as := by
        cases hl2
        rfl
      refine ⟨by simpa [hsf] using hbd, ?_, rfl⟩
      simp [hbd]
  · intro file hfile
    have hl : alookup (params.diagnostics.foldl (fun acc d =>
        if d.range.start = d.range.stop then
          (sm.map_files .fromPreprocess params.uri).foldl
            (fun acc file => bucketPush acc file d) acc
        else
          if (sm.map_range .fromPreprocess params.uri d.range).ok then
            bucketPush acc (sm.map_range .fromPreprocess params.uri d.range).path
              { d with range := (sm.map_range .fromPreprocess params.uri d.range).range }
          else acc) []) file = Option.some (c6SpecBucket sm params file) := by
      rw [hbuck file, optExtend_none_of_ne_nil _ hfile]
    exact List.mem_map.2 ⟨(file, c6SpecBucket sm params file),
      mem_of_alookup_eq_some _ _ _ hl, rfl⟩
  · rw [List.map_map]
    exact hkeys

/-- C6 witness: on `crossFileExample` (lines 0/1 of `p` map into `a`/`b`), a
notification with a diagnostic on line 0, one on line 1, one whole-file
(empty-range) diagnostic and one untranslatable cross-file diagnostic emits
an `a` bucket holding the translated line-0 diagnostic plus the cloned
whole-file diagnostic. -/
theorem c6_witness :
    (⟨"a".toList,
      [⟨⟨⟨100, 0⟩, ⟨100, 1⟩⟩, 11⟩, ⟨⟨⟨0, 5⟩, ⟨0, 5⟩⟩, 33⟩], 7⟩ :
      PublishDiagnosticsParams) ∈
      handle_publish_diagnostics crossFileExample
        ⟨"p".toList,
         [⟨⟨⟨0, 0⟩, ⟨0, 1⟩⟩, 11⟩, ⟨⟨⟨1, 0⟩, ⟨1, 2⟩⟩, 22⟩,
          ⟨⟨⟨0, 5⟩, ⟨0, 5⟩⟩, 33⟩, ⟨⟨⟨0, 0⟩, ⟨1, 0⟩⟩, 44⟩], 7⟩ := by
  have h := (c6_publish_diagnostics crossFileExample
    ⟨"p".toList,
     [⟨⟨⟨0, 0⟩, ⟨0, 1⟩⟩, 11⟩, ⟨⟨⟨1, 0⟩, ⟨1, 2⟩⟩, 22⟩,
      ⟨⟨⟨0, 5⟩, ⟨0, 5⟩⟩, 33⟩, ⟨⟨⟨0, 0⟩, ⟨1, 0⟩⟩, 44⟩], 7⟩
    (by decide) (by decide)).2.1 "a".toList (by decide)
  have he : c6SpecBucket crossFileExample
      ⟨"p".toList,
       [⟨⟨⟨0, 0⟩, ⟨0, 1⟩⟩, 11⟩, ⟨⟨⟨1, 0⟩, ⟨1, 2⟩⟩, 22⟩,
        ⟨⟨⟨0, 5⟩, ⟨0, 5⟩⟩, 33⟩, ⟨⟨⟨0, 0⟩, ⟨1, 0⟩⟩, 44⟩], 7⟩ "a".toList =
      [⟨⟨⟨100, 0⟩, ⟨100, 1⟩⟩, 11⟩, ⟨⟨⟨0, 5⟩, ⟨0, 5⟩⟩, 33⟩] := by decide
  rw [he] at h
  exact h

/-- `LocationLink` from lsp_types (URIs modeled by their file path). -/
structure LocationLink where
  origin_selection_range : Option Range
  target_uri : Str
  target_range : Range
  target_selection_range : Range
deriving DecidableEq, Repr

/-- `GotoDefinitionResponse` from lsp_types. -/
inductive GotoDefinitionResponse where
  | scalar (location : Location)
  | array (locations : List Location)
  | link (links : List LocationLink)
deriving DecidableEq, Repr

/-- The `retain_mut` closure of the `Link` branch of `handle_res_goto`
(src/handler/goto.rs): returns the keep flag together with the link after
the closure's in-place mutations.  The origin block's mapping result is
ignored — an origin selection landing in a file other than `source_path`
only logs a warning — but its mutation of `origin_selection_range`
persists.  `target_range` is translated against a copy of `target_uri`
(`mapped_uri`); then `target_selection_range` is translated together with
`target_uri` itself; a failure of either drops the link, as does a
disagreement between `mapped_uri` and the translated `target_uri`. -/
def goto_link_retain (sm : FiascoSourceMapping) (_source_path mapped_file : Str)
    (location : LocationLink) : Bool × LocationLink :=
  let location :=
    match location.origin_selection_range with
    | Option.none => location
    | Option.some osr =>
      { location with
        origin_selection_range :=
          Option.some (sm.map_range .fromPreprocess mapped_file osr).range }
  let r1 := sm.map_range_uri .fromPreprocess location.target_uri location.target_range
  if r1.ok = false then (false, location)
  else
    let location := { location with target_range := r1.range }
    let mapped_uri := r1.path
    let r2 := sm.map_range_uri .fromPreprocess location.target_uri
      location.target_selection_range
    if r2.ok = false then (false, location)
    else
      let location := { location with
        target_uri := r2.path,
        target_selection_range := r2.range }
      if mapped_uri ≠ location.target_uri then (false, location)
      else (true, location)

/-- `handle_res_goto` from src/handler/goto.rs: without a recorded
`(source_path, mapped_file)` context value the response passes through; a
`None` result stays `None`; scalar locations are mapped in place with the
translation result ignored; array locations are retained only when they map
cleanly; links go through `goto_link_retain`. -/
def handle_res_goto (sm : FiascoSourceMapping) (ctx_value : Option (Str × Str))
    (res : Option GotoDefinitionResponse) : Option GotoDefinitionResponse :=
  match ctx_value with
  | Option.none => res
  | Option.some (source_path, mapped_file) =>
    match res with
    | Option.none => Option.none
    | Option.some result =>
      match result with
      | .scalar location =>
        Option.some (.scalar (sm.map_location .fromPreprocess location).location)
      | .array locations =>
        Option.some (.array (locations.filterMap (fun location =>
          if (sm.map_location .fromPreprocess location).ok then
            Option.some (sm.map_location .fromPreprocess location).location
          else Option.none)))
      | .link links =>
        Option.some (.link (links.filterMap (fun location =>
          if (goto_link_retain sm source_path mapped_file location).1 then
            Option.some (goto_link_retain sm source_path mapped_file location).2
          else Option.none)))

/-- The removal condition exactly as claim C5 words it: a link is removed
when the translated `target_range` and `target_selection_range` land in
different author files, or translation of either fails, or the link's
origin selection maps to a file different from the author file of the
originating request. -/
def c5SpecRemoves (sm : FiascoSourceMapping) (source_path mapped_file : Str)
    (location : LocationLink) : Bool :=
  let r1 := sm.map_range_uri .fromPreprocess location.target_uri location.target_range
  let r2 := sm.map_range_uri .fromPreprocess location.target_uri
    location.target_selection_range
  !r1.ok || !r2.ok || decide (r1.path ≠ r2.path) ||
    (match location.origin_selection_range with
     | Option.none => false
     | Option.some osr =>
       decide ((sm.map_range .fromPreprocess mapped_file osr).path ≠ source_path))

/-- C5 counterexample: on `crossFileExample`, a link whose origin selection
maps into author file `a` while the request's author file was `B`, and
whose two target ranges translate consistently into `a`, satisfies the
claim's removal condition — yet `handle_res_goto` keeps it (the origin
mismatch only logs a warning), returning the translated link as a success
instead of removing it. -/
theorem c5_counterexample :
    c5SpecRemoves crossFileExample "B".toList "p".toList
      ⟨Option.some ⟨⟨0, 0⟩, ⟨0, 1⟩⟩, "p".toList, ⟨⟨0, 2⟩, ⟨0, 3⟩⟩,
        ⟨⟨0, 4⟩, ⟨0, 5⟩⟩⟩ = true ∧
    handle_res_goto crossFileExample (Option.some ("B".toList, "p".toList))
      (Option.some (.link [⟨Option.some ⟨⟨0, 0⟩, ⟨0, 1⟩⟩, "p".toList,
        ⟨⟨0, 2⟩, ⟨0, 3⟩⟩, ⟨⟨0, 4⟩, ⟨0, 5⟩⟩⟩])) =
      Option.some (.link [⟨Option.some ⟨⟨100, 0⟩, ⟨100, 1⟩⟩, "a".toList,
        ⟨⟨100, 2⟩, ⟨100, 3⟩⟩, ⟨⟨100, 4⟩, ⟨100, 5⟩⟩⟩]) := by
  refine ⟨by decide, by decide⟩

/-- C5 (amended): for link-form goto responses the proxy returns a success
whose links are filtered by `goto_link_retain` alone: a link is kept
exactly when the translations of `target_range` and of
`target_selection_range` both succeed and land in the same author file; the
origin selection plays no part in removal. -/
theorem c5_link_filter (sm : FiascoSourceMapping) (source_path mapped_file : Str)
    (links : List LocationLink) :
    (handle_res_goto sm (Option.some (source_path, mapped_file))
        (Option.some (.link links))).isSome = true
    ∧ ∀ location ∈ links,
        ((goto_link_retain sm source_path mapped_file location).1 = true ↔
          ((sm.map_range_uri .fromPreprocess location.target_uri
              location.target_range).ok = true ∧
           (sm.map_range_uri .fromPreprocess location.target_uri
              location.target_selection_range).ok = true ∧
           (sm.map_range_uri .fromPreprocess location.target_uri
              location.target_range).path =
             (sm.map_range_uri .fromPreprocess location.target_uri
               location.target_selection_range).path)) := by
  refine ⟨rfl, ?_⟩
  intro location _hmem
  simp only [goto_link_retain]
  cases hosr : location.origin_selection_range with
  | none =>
    by_cases h1 : (sm.map_range_uri .fromPreprocess location.target_uri
        location.target_range).ok = true
    · by_cases h2 : (sm.map_range_uri .fromPreprocess location.target_uri
          location.target_selection_range).ok = true
      · by_cases h3 : (sm.map_range_uri .fromPreprocess location.target_uri
            location.target_range).path =
            (sm.map_range_uri .fromPreprocess location.target_uri
              location.target_selection_range).path
        · simp [h1, h2, h3]
        · simp [h1, h2, h3]
      · simp [h1, h2]
    · simp [h1]
  | some osr =>
    by_cases h1 : (sm.map_range_uri .fromPreprocess location.target_uri
        location.target_range).ok = true
    · by_cases h2 : (sm.map_range_uri .fromPreprocess location.target_uri
          location.target_selection_range).ok = true
      · by_cases h3 : (sm.map_range_uri .fromPreprocess location.target_uri
            location.target_range).path =
            (sm.map_range_uri .fromPreprocess location.target_uri
              location.target_selection_range).path
        · simp [h1, h2, h3]
        · simp [h1, h2, h3]
      · simp [h1, h2]
    · simp [h1]

/-- C5 witness: on `crossFileExample`, a link whose `target_range` maps into
`a` but whose `target_selection_range` maps into `b` is dropped, by the
amended filter criterion. -/
theorem c5_witness :
    (goto_link_retain crossFileExample "B".toList "p".toList
      ⟨Option.none, "p".toList, ⟨⟨0, 0⟩, ⟨0, 1⟩⟩, ⟨⟨1, 0⟩, ⟨1, 1⟩⟩⟩).1 = false := by
  have h := (c5_link_filter crossFileExample "B".toList "p".toList
    [⟨Option.none, "p".toList, ⟨⟨0, 0⟩, ⟨0, 1⟩⟩, ⟨⟨1, 0⟩, ⟨1, 1⟩⟩⟩]).2
    ⟨Option.none, "p".toList, ⟨⟨0, 0⟩, ⟨0, 1⟩⟩, ⟨⟨1, 0⟩, ⟨1, 1⟩⟩⟩
    (List.mem_singleton.2 rfl)
  by_cases hk : (goto_link_retain crossFileExample "B".toList "p".toList
      ⟨Option.none, "p".toList, ⟨⟨0, 0⟩, ⟨0, 1⟩⟩, ⟨⟨1, 0⟩, ⟨1, 1⟩⟩⟩).1 = true
  · exact absurd (h.1 hk) (by decide)
  · simpa using hk

/-- `HashMap::insert` on an existing key / in-place `*count = v`:
replace the value stored under `k`. -/
def aupdate {α : Type} : List (Str × α) → Str → α → List (Str × α)
  | [], _, _ => []
  | (g, w) :: rest, k, v =>
    if g = k then (k, v) :: aupdate rest k v else (g, w) :: aupdate rest k v

/-- `HashMap::remove`: drop the entry stored under `k`. -/
def aremove {α : Type} : List (Str × α) → Str → List (Str × α)
  | [], _ => []
  | (g, w) :: rest, k =>
    if g = k then aremove rest k else (g, w) :: aremove rest k

/-- `state.open_files` (`HashMap<PathBuf, u32>`) as an association list.
Counts are `Nat`: under the LSP open/close discipline they never exceed the
number of currently open author files, far below `u32::MAX`. -/
abbrev OpenFiles := List (Str × Nat)

/-- `handle_did_open_text_document` (src/handler/document_sync.rs),
restricted to its effect on `open_files` and to the notifications it sends
toward the server.  `map_files` abstracts
`state.source_mapping.map_files(ToPreprocess, ·)`, fixed while
notifications are processed.  Result: the new `open_files`, the
preprocessed files a proxy-generated (translated) `didOpen` is emitted for,
and the client params the early returns forward verbatim to the server.
The source returns early both for a non-`file` scheme and for an unknown
file; since the mapping stores only `file` paths, `map_files doc = []`
covers both. -/
def handle_did_open (map_files : Str → List Str) (open_files : OpenFiles)
    (doc : Str) : OpenFiles × List Str × List Str :=
  if map_files doc = [] then (open_files, [], [doc])
  else
    let r := (map_files doc).foldl (fun su file =>
      match alookup su.1 file with
      | Option.some count => (aupdate su.1 file (count + 1), su.2)
      | Option.none => (su.1 ++ [(file, 1)], su.2 ++ [file])) (open_files, [])
    (r.1, r.2, [])

/-- `handle_did_close_text_document` (src/handler/document_sync.rs),
restricted the same way: a refcount above 1 is decremented silently; a
refcount of 1 removes the entry and emits a translated `didClose`; closing
a file with no entry logs an error and does nothing; and the early returns
forward the client params verbatim. -/
def handle_did_close (map_files : Str → List Str) (open_files : OpenFiles)
    (doc : Str) : OpenFiles × List Str × List Str :=
  if map_files doc = [] then (open_files, [], [doc])
  else
    let r := (map_files doc).foldl (fun su file =>
      match alookup su.1 file with
      | Option.some count =>
        if count > 1 then (aupdate su.1 file (count - 1), su.2)
        else (aremove su.1 file, su.2 ++ [file])
      | Option.none => su) (open_files, [])
    (r.1, r.2, [])

/-- An author-side document lifecycle notification. -/
inductive DocEvent where
  | didOpen (doc : Str)
  | didClose (doc : Str)
deriving DecidableEq, Repr

/-- A `didOpen`/`didClose` sent toward the server: `translated = true` for
the proxy-generated per-preprocessed-file notifications, `false` for client
params forwarded verbatim by the handlers' early returns (dispatched to the
server by `on_many` in src/main.rs). -/
inductive ServerNotif where
  | opened (translated : Bool) (f : Str)
  | closed (translated : Bool) (f : Str)
deriving DecidableEq, Repr

/-- One step of the coordinator loop for document-sync notifications: apply
the handler and append everything it sends toward the server — translated
notifications first, then the forwarded params — to the log. -/
def docStep (map_files : Str → List Str)
    (sl : OpenFiles × List ServerNotif) (e : DocEvent) :
    OpenFiles × List ServerNotif :=
  match e with
  | .didOpen doc =>
    let r := handle_did_open map_files sl.1 doc
    (r.1, sl.2 ++ r.2.1.map (ServerNotif.opened true) ++
      r.2.2.map (ServerNotif.opened false))
  | .didClose doc =>
    let r := handle_did_close map_files sl.1 doc
    (r.1, sl.2 ++ r.2.1.map (ServerNotif.closed true) ++
      r.2.2.map (ServerNotif.closed false))

/-- Run a sequence of author-side notifications from the initial state. -/
def runDocEvents (map_files : Str → List Str) (events : List DocEvent) :
    OpenFiles × List ServerNotif :=
  events.foldl (docStep map_files) ([], [])

/-- Remove the first occurrence of `a`. -/
def eraseStr : List Str → Str → List Str
  | [], _ => []
  | x :: xs, a => if x = a then xs else x :: eraseStr xs a

/-- The author files currently open after processing `events`, starting
from the currently open documents `openNow`. -/
def openDocsAux (openNow : List Str) (events : List DocEvent) : List Str :=
  events.foldl (fun acc e =>
    match e with
    | .didOpen doc => acc ++ [doc]
    | .didClose doc => eraseStr acc doc) openNow

/-- The author files currently open after processing `events`. -/
def openDocs (events : List DocEvent) : List Str := openDocsAux [] events

/-- The LSP document-lifecycle discipline: a document is opened only while
not open, and closed only while open. -/
def wfEvents : List Str → List DocEvent → Prop
  | _, [] => True
  | openNow, .didOpen doc :: rest => doc ∉ openNow ∧ wfEvents (openNow ++ [doc]) rest
  | openNow, .didClose doc :: rest => doc ∈ openNow ∧ wfEvents (eraseStr openNow doc) rest

theorem alookup_cons {α : Type} (a : Str) (b : α) (rest : List (Str × α))
    (f : Str) :
    alookup ((a, b) :: rest) f = if a = f then Option.some b else alookup rest f := rfl

theorem alookup_aupdate_self {α : Type} (l : List (Str × α)) (k : Str)
    (c : α) (v : α) (h : alookup l k = Option.some c) :
    alookup (aupdate l k v) k = Option.some v := by
  induction l with
  | nil => cases h
  | cons p rest ih =>
    obtain ⟨g, w⟩ := p
    by_cases hg : g = k
    · subst hg
      simp [aupdate, alookup_cons]
    · rw [alookup_cons, if_neg hg] at h
      simp [aupdate, hg, alookup_cons, ih h]

theorem alookup_aupdate_other {α : Type} (l : List (Str × α)) (k f : Str)
    (v : α) (h : f ≠ k) : alookup (aupdate l k v) f = alookup l f := by
  induction l with
  | nil => rfl
  | cons p rest ih =>
    obtain ⟨g, w⟩ := p
    by_cases hg : g = k
    · subst hg
      rw [aupdate, if_pos rfl, alookup_cons, alookup_cons,
        if_neg (fun hh : g = f => h hh.symm), if_neg (fun hh : g = f => h hh.symm), ih]
    · rw [aupdate, if_neg hg, alookup_cons, alookup_cons, ih]

theorem alookup_aremove_self {α : Type} (l : List (Str × α)) (k : Str) :
    alookup (aremove l k) k = Option.none := by
  induction l with
  | nil => rfl
  | cons p rest ih =>
    obtain ⟨g, w⟩ := p
    by_cases hg : g = k
    · rw [aremove, if_pos hg]
      exact ih
    · rw [aremove, if_neg hg, alookup_cons, if_neg (fun hh : g = k => hg hh)]
      exact ih

theorem alookup_aremove_other {α : Type} (l : List (Str × α)) (k f : Str)
    (h : f ≠ k) : alookup (aremove l k) f = alookup l f := by
  induction l with
  | nil => rfl
  | cons p rest ih =>
    obtain ⟨g, w⟩ := p
    by_cases hg : g = k
    · subst hg
      rw [aremove, if_pos rfl, alookup_cons, if_neg (fun hh : g = f => h hh.symm), ih]
    · rw [aremove, if_neg hg, alookup_cons, alookup_cons, ih]

theorem alookup_append_single_self {α : Type} (l : List (Str × α)) (k : Str)
    (v : α) (h : alookup l k = Option.none) :
    alookup (l ++ [(k, v)]) k = Option.some v := by
  induction l with
  | nil => simp [alookup_cons]
  | cons p rest ih =>
    obtain ⟨g, w⟩ := p
    by_cases hg : g = k
    · rw [alookup_cons, if_pos hg] at h
      cases h
    · rw [alookup_cons, if_neg hg] at h
      rw [List.cons_append, alookup_cons, if_neg hg]
      exact ih h

theorem alookup_append_single_other {α : Type} (l : List (Str × α)) (k f : Str)
    (v : α) (h : f ≠ k) : alookup (l ++ [(k, v)]) f = alookup l f := by
  induction l with
  | nil => simp [alookup_cons, alookup, Ne.symm h]
  | cons p rest ih =>
    obtain ⟨g, w⟩ := p
    rw [List.cons_append, alookup_cons, alookup_cons, ih]

/-- `handle_did_open` componentwise: state and translated notifications
come from the per-file loop (trivial when `map_files doc` is empty), and
the client params are forwarded exactly when `map_files doc` is empty. -/
theorem handle_did_open_eq (map_files : Str → List Str)
    (open_files : OpenFiles) (doc : Str) :
    handle_did_open map_files open_files doc =
      (((map_files doc).foldl (fun su file =>
          match alookup su.1 file with
          | Option.some count => (aupdate su.1 file (count + 1), su.2)
          | Option.none => (su.1 ++ [(file, 1)], su.2 ++ [file]))
          (open_files, [])).1,
       ((map_files doc).foldl (fun su file =>
          match alookup su.1 file with
          | Option.some count => (aupdate su.1 file (count + 1), su.2)
          | Option.none => (su.1 ++ [(file, 1)], su.2 ++ [file]))
          (open_files, [])).2,
       if map_files doc = [] then [doc] else []) := by
  by_cases h : map_files doc = []
  · simp only [handle_did_open]
    rw [if_pos h, if_pos h, h]
    rfl
  · simp only [handle_did_open]
    rw [if_neg h, if_neg h]

/-- `handle_did_close` componentwise, the same way. -/
theorem handle_did_close_eq (map_files : Str → List Str)
    (open_files : OpenFiles) (doc : Str) :
    handle_did_close map_files open_files doc =
      (((map_files doc).foldl (fun su file =>
          match alookup su.1 file with
          | Option.some count =>
            if count > 1 then (aupdate su.1 file (count - 1), su.2)
            else (aremove su.1 file, su.2 ++ [file])
          | Option.none => su) (open_files, [])).1,
       ((map_files doc).foldl (fun su file =>
          match alookup su.1 file with
          | Option.some count =>
            if count > 1 then (aupdate su.1 file (count - 1), su.2)
            else (aremove su.1 file, su.2 ++ [file])
          | Option.none => su) (open_files, [])).2,
       if map_files doc = [] then [doc] else []) := by
  by_cases h : map_files doc = []
  · simp only [handle_did_close]
    rw [if_pos h, if_pos h, h]
    rfl
  · simp only [handle_did_close]
    rw [if_neg h, if_neg h]

/-- Effect of the `didOpen` per-file loop on the refcount map and on the
emitted notifications: every destination's count is bumped (created at 1),
and a `didOpen` is emitted exactly for the files that had no entry. -/
theorem openFold (files : List Str) (hnd : files.Nodup) :
    ∀ (s : OpenFiles) (out : List Str),
    (∀ f, alookup (files.foldl (fun su file =>
        match alookup su.1 file with
        | Option.some count => (aupdate su.1 file (count + 1), su.2)
        | Option.none => (su.1 ++ [(file, 1)], su.2 ++ [file])) (s, out)).1 f =
      (if f ∈ files then Option.some (((alookup s f).getD 0) + 1) else alookup s f))
    ∧ (files.foldl (fun su file =>
        match alookup su.1 file with
        | Option.some count => (aupdate su.1 file (count + 1), su.2)
        | Option.none => (su.1 ++ [(file, 1)], su.2 ++ [file])) (s, out)).2 =
      out ++ files.filter (fun f => decide (alookup s f = Option.none)) := by
  induction files with
  | nil => intro s out; exact ⟨fun f => by simp, by simp⟩
  | cons x xs ih =>
    intro s out
    have hx' : x ∉ xs := (List.nodup_cons.1 hnd).1
    have ihx := ih (List.nodup_cons.1 hnd).2
    simp only [List.foldl_cons]
    cases hx : alookup s x with
    | some c =>
      dsimp only
      refine ⟨fun f => ?_, ?_⟩
      · rw [(ihx (aupdate s x (c + 1)) out).1 f]
        by_cases hfx : f = x
        · subst hfx
          rw [if_neg (fun hc => hx' hc), if_pos (List.mem_cons_self _ _),
            alookup_aupdate_self s f c _ hx, hx]
          rfl
        · rw [alookup_aupdate_other s x f _ hfx]
          by_cases hfxs : f ∈ xs
          · rw [if_pos hfxs, if_pos (List.mem_cons_of_mem _ hfxs)]
          · rw [if_neg hfxs, if_neg (by
              intro hmem
              rcases List.mem_cons.1 hmem with h | h
              · exact hfx h
              · exact hfxs h)]
      · rw [(ihx (aupdate s x (c + 1)) out).2]
        have hfilter : xs.filter (fun f => decide (alookup (aupdate s x (c + 1)) f = Option.none)) =
            xs.filter (fun f => decide (alookup s f = Option.none)) := by
          refine List.filter_congr ?_
          intro f hf
          rw [alookup_aupdate_other s x f _ (fun hc => hx' (hc ▸ hf))]
        rw [hfilter, List.filter_cons, hx]
        simp
    | none =>
      dsimp only
      refine ⟨fun f => ?_, ?_⟩
      · rw [(ihx (s ++ [(x, 1)]) (out ++ [x])).1 f]
        by_cases hfx : f = x
        · subst hfx
          rw [if_neg (fun hc => hx' hc), if_pos (List.mem_cons_self _ _),
            alookup_append_single_self s f _ hx, hx]
          rfl
        · rw [alookup_append_single_other s x f _ hfx]
          by_cases hfxs : f ∈ xs
          · rw [if_pos hfxs, if_pos (List.mem_cons_of_mem _ hfxs)]
          · rw [if_neg hfxs, if_neg (by
              intro hmem
              rcases List.mem_cons.1 hmem with h | h
              · exact hfx h
              · exact hfxs h)]
      · rw [(ihx (s ++ [(x, 1)]) (out ++ [x])).2]
        have hfilter : xs.filter (fun f => decide (alookup (s ++ [(x, 1)]) f = Option.none)) =
            xs.filter (fun f => decide (alookup s f = Option.none)) := by
          refine List.filter_congr ?_
          intro f hf
          rw [alookup_append_single_other s x f _ (fun hc => hx' (hc ▸ hf))]
        rw [hfilter, List.filter_cons, hx]
        simp

/-- Effect of the `didClose` per-file loop: counts above 1 are decremented
silently, counts of at most 1 are removed with a `didClose` emitted, and
absent entries are left alone (logged error in the source). -/
theorem closeFold (files : List Str) (hnd : files.Nodup) :
    ∀ (s : OpenFiles) (out : List Str),
    (∀ f, alookup (files.foldl (fun su file =>
        match alookup su.1 file with
        | Option.some count =>
          if count > 1 then (aupdate su.1 file (count - 1), su.2)
          else (aremove su.1 file, su.2 ++ [file])
        | Option.none => su) (s, out)).1 f =
      (if f ∈ files then
        (match alookup s f with
         | Option.some c => if c > 1 then Option.some (c - 1) else Option.none
         | Option.none => Option.none)
       else alookup s f))
    ∧ (files.foldl (fun su file =>
        match alookup su.1 file with
        | Option.some count =>
          if count > 1 then (aupdate su.1 file (count - 1), su.2)
          else (aremove su.1 file, su.2 ++ [file])
        | Option.none => su) (s, out)).2 =
      out ++ files.filter (fun f =>
        match alookup s f with
        | Option.some c => decide (c ≤ 1)
        | Option.none => false) := by
  induction files with
  | nil => intro s out; exact ⟨fun f => by simp, by simp⟩
  | cons x xs ih =>
    intro s out
    have hx' : x ∉ xs := (List.nodup_cons.1 hnd).1
    have ihx := ih (List.nodup_cons.1 hnd).2
    simp only [List.foldl_cons]
    cases hx : alookup s x with
    | some c =>
      dsimp only
      by_cases hc : c > 1
      · rw [if_pos hc]
        refine ⟨fun f => ?_, ?_⟩
        · rw [(ihx (aupdate s x (c - 1)) out).1 f]
          by_cases hfx : f = x
          · subst hfx
            rw [if_neg (fun hcc => hx' hcc), if_pos (List.mem_cons_self _ _),
              alookup_aupdate_self s f c _ hx, hx]
            simp [hc]
          · rw [alookup_aupdate_other s x f _ hfx]
            by_cases hfxs : f ∈ xs
            · rw [if_pos hfxs, if_pos (List.mem_cons_of_mem _ hfxs)]
            · rw [if_neg hfxs, if_neg (by
                intro hmem
                rcases List.mem_cons.1 hmem with h | h
                · exact hfx h
                · exact hfxs h)]
        · rw [(ihx (aupdate s x (c - 1)) out).2]
          have hfilter : xs.filter (fun f =>
              match alookup (aupdate s x (c - 1)) f with
              | Option.some c => decide (c ≤ 1)
              | Option.none => false) =
              xs.filter (fun f =>
              match alookup s f with
              | Option.some c => decide (c ≤ 1)
              | Option.none => false) := by
            refine List.filter_congr ?_
            intro f hf
            rw [alookup_aupdate_other s x f _ (fun hcc => hx' (hcc ▸ hf))]
          rw [hfilter, List.filter_cons, hx]
          have : ¬ c ≤ 1 := by omega
          simp [this]
      · rw [if_neg hc]
        refine ⟨fun f => ?_, ?_⟩
        · rw [(ihx (aremove s x) (out ++ [x])).1 f]
          by_cases hfx : f = x
          · subst hfx
            rw [if_neg (fun hcc => hx' hcc), if_pos (List.mem_cons_self _ _),
              alookup_aremove_self, hx]
            simp [hc]
          · rw [alookup_aremove_other s x f hfx]
            by_cases hfxs : f ∈ xs
            · rw [if_pos hfxs, if_pos (List.mem_cons_of_mem _ hfxs)]
            · rw [if_neg hfxs, if_neg (by
                intro hmem
                rcases List.mem_cons.1 hmem with h | h
                · exact hfx h
                · exact hfxs h)]
        · rw [(ihx (aremove s x) (out ++ [x])).2]
          have hfilter : xs.filter (fun f =>
              match alookup (aremove s x) f with
              | Option.some c => decide (c ≤ 1)
              | Option.none => false) =
              xs.filter (fun f =>
              match alookup s f with
              | Option.some c => decide (c ≤ 1)
              | Option.none => false) := by
            refine List.filter_congr ?_
            intro f hf
            rw [alookup_aremove_other s x f (fun hcc => hx' (hcc ▸ hf))]
          rw [hfilter, List.filter_cons, hx]
          have : c ≤ 1 := by omega
          simp [this]
    | none =>
      dsimp only
      refine ⟨fun f => ?_, ?_⟩
      · rw [(ihx s out).1 f]
        by_cases hfx : f = x
        · subst hfx
          rw [if_neg (fun hcc => hx' hcc), if_pos (List.mem_cons_self _ _), hx]
        · by_cases hfxs : f ∈ xs
          · rw [if_pos hfxs, if_pos (List.mem_cons_of_mem _ hfxs)]
          · rw [if_neg hfxs, if_neg (by
              intro hmem
              rcases List.mem_cons.1 hmem with h | h
              · exact hfx h
              · exact hfxs h)]
      · rw [(ihx s out).2]
        rw [List.filter_cons, hx]
        simp

/-- Number of occurrences (instance-free). -/
def countOcc {α : Type} [DecidableEq α] (l : List α) (a : α) : Nat :=
  (l.filter (fun x => decide (x = a))).length

theorem countOcc_nil {α : Type} [DecidableEq α] (a : α) :
    countOcc ([] : List α) a = 0 := rfl

theorem countOcc_append {α : Type} [DecidableEq α] (l1 l2 : List α) (a : α) :
    countOcc (l1 ++ l2) a = countOcc l1 a + countOcc l2 a := by
  simp [countOcc, List.filter_append]

theorem countOcc_eq_zero {α : Type} [DecidableEq α] (l : List α) (a : α)
    (h : a ∉ l) : countOcc l a = 0 := by
  induction l with
  | nil => rfl
  | cons x xs ih =>
    have hx : ¬ x = a := fun hc => h (hc ▸ List.mem_cons_self _ _)
    have ih' := ih (fun hc => h (List.mem_cons_of_mem _ hc))
    simp [countOcc, List.filter_cons, hx] at ih' ⊢
    exact ih'

theorem countOcc_eq_one {α : Type} [DecidableEq α] (l : List α) (a : α)
    (hnd : l.Nodup) (h : a ∈ l) : countOcc l a = 1 := by
  induction l with
  | nil => cases h
  | cons x xs ih =>
    by_cases hx : x = a
    · subst hx
      have h0 : countOcc xs x = 0 := countOcc_eq_zero xs x (List.nodup_cons.1 hnd).1
      simp [countOcc, List.filter_cons] at h0 ⊢
      exact h0
    · have hmem : a ∈ xs := by
        rcases List.mem_cons.1 h with hc | hc
        · exact absurd hc.symm hx
        · exact hc
      have ih' := ih (List.nodup_cons.1 hnd).2 hmem
      simp [countOcc, List.filter_cons, hx] at ih' ⊢
      exact ih'

theorem countOcc_map_inj {α β : Type} [DecidableEq α] [DecidableEq β]
    (g : α → β) (hg : ∀ x y, g x = g y → x = y) (l : List α) (a : α) :
    countOcc (l.map g) (g a) = countOcc l a := by
  induction l with
  | nil => rfl
  | cons x xs ih =>
    simp only [List.map_cons, countOcc, List.filter_cons] at ih ⊢
    by_cases hx : x = a
    · subst hx
      simp [ih]
    · have hgx : ¬ g x = g a := fun hc => hx (hg _ _ hc)
      simp [hx, hgx, ih]

theorem countOcc_map_none {α β : Type} [DecidableEq α] [DecidableEq β]
    (g : α → β) (b : β) (hb : ∀ x, g x ≠ b) (l : List α) :
    countOcc (l.map g) b = 0 := by
  refine countOcc_eq_zero _ _ ?_
  intro hmem
  obtain ⟨x, _, hx⟩ := List.mem_map.1 hmem
  exact hb x hx

theorem mem_eraseStr (l : List Str) (a f : Str)
    (h : f ∈ eraseStr l a) : f ∈ l := by
  induction l with
  | nil => cases h
  | cons x xs ih =>
    rw [eraseStr] at h
    by_cases hx : x = a
    · rw [if_pos hx] at h
      exact List.mem_cons_of_mem _ h
    · rw [if_neg hx] at h
      rcases List.mem_cons.1 h with hc | hc
      · exact hc ▸ List.mem_cons_self _ _
      · exact List.mem_cons_of_mem _ (ih hc)

theorem nodup_eraseStr (l : List Str) (a : Str) (hnd : l.Nodup) :
    (eraseStr l a).Nodup := by
  induction l with
  | nil => exact hnd
  | cons x xs ih =>
    rw [eraseStr]
    by_cases hx : x = a
    · rw [if_pos hx]
      exact (List.nodup_cons.1 hnd).2
    · rw [if_neg hx]
      refine List.nodup_cons.2 ⟨?_, ih (List.nodup_cons.1 hnd).2⟩
      intro hc
      exact (List.nodup_cons.1 hnd).1 (mem_eraseStr xs a x hc)

/-- Removing one occurrence of `a` removes exactly its contribution to a
filter count. -/
theorem filter_eraseStr_length (l : List Str) (a : Str) (ha : a ∈ l)
    (p : Str → Bool) :
    ((eraseStr l a).filter p).length =
      (l.filter p).length - (if p a then 1 else 0) := by
  induction l with
  | nil => cases ha
  | cons x xs ih =>
    rw [eraseStr]
    by_cases hxa : x = a
    · subst hxa
      rw [if_pos rfl, List.filter_cons]
      by_cases hp : p x
      · simp [hp]
      · simp [hp]
    · have ha' : a ∈ xs := by
        rcases List.mem_cons.1 ha with hc | hc
        · exact absurd hc.symm hxa
        · exact hc
      rw [if_neg hxa, List.filter_cons, List.filter_cons]
      by_cases hp : p x
      · simp only [hp, if_true, List.length_cons]
        rw [ih ha']
        by_cases hpa : p a
        · have hpos : 0 < (xs.filter p).length := by
            have : a ∈ xs.filter p := List.mem_filter.2 ⟨ha', hpa⟩
            exact List.length_pos.2 (fun hnil => by rw [hnil] at this; cases this)
          simp only [hpa, if_true]
          omega
        · simp [hpa]
      · simp only [hp, Bool.false_eq_true, if_false]
        exact ih ha'

theorem openDocsAux_cons_open (openNow : List Str) (doc : Str)
    (rest : List DocEvent) :
    openDocsAux openNow (DocEvent.didOpen doc :: rest) =
      openDocsAux (openNow ++ [doc]) rest := rfl

theorem openDocsAux_cons_close (openNow : List Str) (doc : Str)
    (rest : List DocEvent) :
    openDocsAux openNow (DocEvent.didClose doc :: rest) =
      openDocsAux (eraseStr openNow doc) rest := rfl

/-- The refcount/emission invariant of document sync, relative to an
arbitrary reachable configuration: the count stored for each preprocessed
file equals the number of currently open author files mapping to it, and
the emitted `didOpen`s exceed the emitted `didClose`s by one exactly while
that count is positive. -/
theorem c2_aux (map_files : Str → List Str)
    (hnd : ∀ doc, (map_files doc).Nodup) (events : List DocEvent) :
    ∀ (openNow : List Str) (s : OpenFiles) (log : List ServerNotif),
    wfEvents openNow events → openNow.Nodup →
    (∀ f, alookup s f =
      (if (openNow.filter (fun d => decide (f ∈ map_files d))).length = 0
       then Option.none
       else Option.some
         ((openNow.filter (fun d => decide (f ∈ map_files d))).length))) →
    (∀ f, countOcc log (ServerNotif.opened true f) =
      countOcc log (ServerNotif.closed true f) +
      (if (openNow.filter (fun d => decide (f ∈ map_files d))).length = 0
       then 0 else 1)) →
    ((∀ f, alookup (events.foldl (docStep map_files) (s, log)).1 f =
      (if ((openDocsAux openNow events).filter
          (fun d => decide (f ∈ map_files d))).length = 0
       then Option.none
       else Option.some (((openDocsAux openNow events).filter
          (fun d => decide (f ∈ map_files d))).length)))
    ∧ (∀ f, countOcc (events.foldl (docStep map_files) (s, log)).2
          (ServerNotif.opened true f) =
        countOcc (events.foldl (docStep map_files) (s, log)).2
          (ServerNotif.closed true f) +
        (if ((openDocsAux openNow events).filter
            (fun d => decide (f ∈ map_files d))).length = 0
         then 0 else 1))) := by
  induction events with
  | nil =>
    intro openNow s log _ _ hs hlog
    exact ⟨hs, hlog⟩
  | cons e rest ih =>
    intro openNow s log hwf hnodup hs hlog
    have hgetD : ∀ f, (alookup s f).getD 0 =
        (openNow.filter (fun d => decide (f ∈ map_files d))).length := by
      intro f
      rw [hs f]
      by_cases h0 : (openNow.filter (fun d => decide (f ∈ map_files d))).length = 0
      · simp [h0]
      · simp [h0]
    cases e with
    | didOpen doc =>
      obtain ⟨hdoc, hwf'⟩ := hwf
      have hopenF := openFold (map_files doc) (hnd doc) s []
      have hstep : docStep map_files (s, log) (DocEvent.didOpen doc) =
          ((handle_did_open map_files s doc).1,
           log ++ (handle_did_open map_files s doc).2.1.map
              (ServerNotif.opened true) ++
            (handle_did_open map_files s doc).2.2.map
              (ServerNotif.opened false)) := rfl
      rw [List.foldl_cons, hstep, openDocsAux_cons_open]
      have hcnt' : ∀ f, ((openNow ++ [doc]).filter
          (fun d => decide (f ∈ map_files d))).length =
          (openNow.filter (fun d => decide (f ∈ map_files d))).length +
            (if f ∈ map_files doc then 1 else 0) := by
        intro f
        rw [List.filter_append, List.length_append]
        by_cases hmem : f ∈ map_files doc
        · simp [hmem]
        · simp [hmem]
      have hemits : ∀ f, countOcc (handle_did_open map_files s doc).2.1 f =
          (if f ∈ map_files doc ∧
              (openNow.filter (fun d => decide (f ∈ map_files d))).length = 0
           then 1 else 0) := by
        intro f
        have h2 : (handle_did_open map_files s doc).2.1 =
            (map_files doc).filter (fun g => decide (alookup s g = Option.none)) := by
          rw [handle_did_open_eq]
          rw [hopenF.2]
          simp
        rw [h2]
        by_cases hmem : f ∈ map_files doc ∧
            (openNow.filter (fun d => decide (f ∈ map_files d))).length = 0
        · rw [if_pos hmem]
          refine countOcc_eq_one _ _ ((hnd doc).filter _) ?_
          refine List.mem_filter.2 ⟨hmem.1, ?_⟩
          rw [hs f, if_pos hmem.2]
          simp
        · rw [if_neg hmem]
          refine countOcc_eq_zero _ _ ?_
          intro hin
          obtain ⟨hin1, hin2⟩ := List.mem_filter.1 hin
          rw [hs f] at hin2
          by_cases h0 : (openNow.filter (fun d => decide (f ∈ map_files d))).length = 0
          · exact hmem ⟨hin1, h0⟩
          · rw [if_neg h0] at hin2
            simp at hin2
      refine ih (openNow ++ [doc]) _ _ hwf' ?_ ?_ ?_
      · refine List.Nodup.append hnodup (List.nodup_singleton _) ?_
        intro a ha hb
        simp only [List.mem_singleton] at hb
        subst hb
        exact hdoc ha
      · intro f
        have hstate : alookup (handle_did_open map_files s doc).1 f =
            (if f ∈ map_files doc
             then Option.some (((alookup s f).getD 0) + 1)
             else alookup s f) := by
          rw [handle_did_open_eq]
          exact hopenF.1 f
        rw [hstate, hcnt' f]
        by_cases hmem : f ∈ map_files doc
        · rw [if_pos hmem, if_pos hmem, hgetD f,
            if_neg (by omega)]
        · rw [if_neg hmem, if_neg hmem, hs f]
          simp
      · intro f
        have hA1 : countOcc ((handle_did_open map_files s doc).2.1.map
            (ServerNotif.opened true)) (ServerNotif.opened true f) =
            countOcc (handle_did_open map_files s doc).2.1 f :=
          countOcc_map_inj _ (fun x y h => by injection h) _ _
        have hA2 : countOcc ((handle_did_open map_files s doc).2.1.map
            (ServerNotif.opened true)) (ServerNotif.closed true f) = 0 :=
          countOcc_map_none _ _ (fun x h => ServerNotif.noConfusion h) _
        have hB1 : countOcc ((handle_did_open map_files s doc).2.2.map
            (ServerNotif.opened false)) (ServerNotif.opened true f) = 0 :=
          countOcc_map_none _ _ (fun x h => by
            injection h with h1 h2
            exact Bool.noConfusion h1) _
        have hB2 : countOcc ((handle_did_open map_files s doc).2.2.map
            (ServerNotif.opened false)) (ServerNotif.closed true f) = 0 :=
          countOcc_map_none _ _ (fun x h => ServerNotif.noConfusion h) _
        simp only [countOcc_append, hA1, hA2, hB1, hB2]
        rw [hcnt' f, hemits f]
        have hl := hlog f
        by_cases hmem : f ∈ map_files doc <;>
          by_cases h0 : (openNow.filter (fun d => decide (f ∈ map_files d))).length = 0 <;>
          simp only [hmem, h0, true_and, false_and, and_true, and_false, if_true,
            if_false, not_false_iff, not_true] at hl ⊢ <;>
          simp [h0] at hl ⊢ <;> omega
    | didClose doc =>
      obtain ⟨hdoc, hwf'⟩ := hwf
      have hcloseF := closeFold (map_files doc) (hnd doc) s []
      have hstep : docStep map_files (s, log) (DocEvent.didClose doc) =
          ((handle_did_close map_files s doc).1,
           log ++ (handle_did_close map_files s doc).2.1.map
              (ServerNotif.closed true) ++
            (handle_did_close map_files s doc).2.2.map
              (ServerNotif.closed false)) := rfl
      rw [List.foldl_cons, hstep, openDocsAux_cons_close]
      have hcnt' : ∀ f, ((eraseStr openNow doc).filter
          (fun d => decide (f ∈ map_files d))).length =
          (openNow.filter (fun d => decide (f ∈ map_files d))).length -
            (if f ∈ map_files doc then 1 else 0) := by
        intro f
        rw [filter_eraseStr_length openNow doc hdoc]
        by_cases hmem : f ∈ map_files doc
        · simp [hmem]
        · simp [hmem]
      have hge1 : ∀ f, f ∈ map_files doc →
          1 ≤ (openNow.filter (fun d => decide (f ∈ map_files d))).length := by
        intro f hmem
        have : doc ∈ openNow.filter (fun d => decide (f ∈ map_files d)) :=
          List.mem_filter.2 ⟨hdoc, by simpa using hmem⟩
        refine List.length_pos.2 ?_
        intro hnil
        rw [hnil] at this
        cases this
      have hemits : ∀ f, countOcc (handle_did_close map_files s doc).2.1 f =
          (if f ∈ map_files doc ∧
              (openNow.filter (fun d => decide (f ∈ map_files d))).length = 1
           then 1 else 0) := by
        intro f
        have h2 : (handle_did_close map_files s doc).2.1 =
            (map_files doc).filter (fun g =>
              match alookup s g with
              | Option.some c => decide (c ≤ 1)
              | Option.none => false) := by
          rw [handle_did_close_eq]
          rw [hcloseF.2]
          simp
        rw [h2]
        by_cases hmem : f ∈ map_files doc ∧
            (openNow.filter (fun d => decide (f ∈ map_files d))).length = 1
        · rw [if_pos hmem]
          refine countOcc_eq_one _ _ ((hnd doc).filter _) ?_
          refine List.mem_filter.2 ⟨hmem.1, ?_⟩
          rw [hs f, if_neg (by omega), hmem.2]
          simp
        · rw [if_neg hmem]
          refine countOcc_eq_zero _ _ ?_
          intro hin
          obtain ⟨hin1, hin2⟩ := List.mem_filter.1 hin
          rw [hs f] at hin2
          by_cases h0 : (openNow.filter (fun d => decide (f ∈ map_files d))).length = 0
          · rw [if_pos h0] at hin2
            simp at hin2
          · rw [if_neg h0] at hin2
            simp at hin2
            exact hmem ⟨hin1, by omega⟩
      refine ih (eraseStr openNow doc) _ _ hwf' (nodup_eraseStr _ _ hnodup) ?_ ?_
      · intro f
        have hstate : alookup (handle_did_close map_files s doc).1 f =
            (if f ∈ map_files doc then
              (match alookup s f with
               | Option.some c => if c > 1 then Option.some (c - 1) else Option.none
               | Option.none => Option.none)
             else alookup s f) := by
          rw [handle_did_close_eq]
          exact hcloseF.1 f
        rw [hstate, hcnt' f]
        by_cases hmem : f ∈ map_files doc
        · have h1 := hge1 f hmem
          rw [if_pos hmem, if_pos hmem, hs f, if_neg (by omega)]
          by_cases hgt : (openNow.filter (fun d => decide (f ∈ map_files d))).length > 1
          · simp only [hgt, if_true]
            rw [if_neg (by omega)]
          · simp only [hgt, if_false]
            rw [if_pos (by omega)]
        · rw [if_neg hmem, if_neg hmem, hs f]
          simp
      · intro f
        have hA1 : countOcc ((handle_did_close map_files s doc).2.1.map
            (ServerNotif.closed true)) (ServerNotif.closed true f) =
            countOcc (handle_did_close map_files s doc).2.1 f :=
          countOcc_map_inj _ (fun x y h => by injection h) _ _
        have hA2 : countOcc ((handle_did_close map_files s doc).2.1.map
            (ServerNotif.closed true)) (ServerNotif.opened true f) = 0 :=
          countOcc_map_none _ _ (fun x h => ServerNotif.noConfusion h) _
        have hB1 : countOcc ((handle_did_close map_files s doc).2.2.map
            (ServerNotif.closed false)) (ServerNotif.closed true f) = 0 :=
          countOcc_map_none _ _ (fun x h => by
            injection h with h1 h2
            exact Bool.noConfusion h1) _
        have hB2 : countOcc ((handle_did_close map_files s doc).2.2.map
            (ServerNotif.closed false)) (ServerNotif.opened true f) = 0 :=
          countOcc_map_none _ _ (fun x h => ServerNotif.noConfusion h) _
        simp only [countOcc_append, hA1, hA2, hB1, hB2]
        rw [hcnt' f, hemits f]
        have hl := hlog f
        by_cases hmem : f ∈ map_files doc
        · have h1 := hge1 f hmem
          rw [if_neg (by omega : ¬ (openNow.filter
            (fun d => decide (f ∈ map_files d))).length = 0)] at hl
          by_cases h1eq : (openNow.filter (fun d => decide (f ∈ map_files d))).length = 1
          · rw [if_pos ⟨hmem, h1eq⟩, if_pos hmem, h1eq,
              if_pos (by omega : (1 : Nat) - 1 = 0)]
            omega
          · rw [if_neg (fun hc : _ ∧ _ => h1eq hc.2), if_pos hmem,
              if_neg (by omega : ¬ ((openNow.filter
                (fun d => decide (f ∈ map_files d))).length - 1 = 0))]
            omega
        · rw [if_neg (fun hc : _ ∧ _ => hmem hc.1), if_neg hmem, Nat.sub_zero]
          by_cases h0 : (openNow.filter (fun d => decide (f ∈ map_files d))).length = 0
          · rw [if_pos h0] at hl
            rw [if_pos h0]
            omega
          · rw [if_neg h0] at hl
            rw [if_neg h0]
            omega

/-- Server-side `didOpen` notifications naming `f`, translated or
forwarded. -/
def openNotifsFor (log : List ServerNotif) (f : Str) : Nat :=
  (log.filter (fun n =>
    match n with
    | ServerNotif.opened _ g => decide (g = f)
    | ServerNotif.closed _ _ => false)).length

/-- Server-side `didClose` notifications naming `f`, translated or
forwarded. -/
def closeNotifsFor (log : List ServerNotif) (f : Str) : Nat :=
  (log.filter (fun n =>
    match n with
    | ServerNotif.opened _ _ => false
    | ServerNotif.closed _ g => decide (g = f))).length

/-- Counterexample mapping: author file `A` is built into preprocessed `p`;
no other file (in particular not `p` itself) is known. -/
def c2cexMf (doc : Str) : List Str :=
  if doc = "A".toList then ["p".toList] else []

/-- Counterexample trace: the author file `A` is opened, then the
preprocessed file `p` is opened directly in the editor. -/
def c2cexEv : List DocEvent :=
  [DocEvent.didOpen "A".toList, DocEvent.didOpen "p".toList]

/-- C2 counterexample: the trace is well-formed, the refcount of `p` is 1
after it (state-wise `p` had its 0→1 transition once and was never
closed), yet the server has received TWO `didOpen` notifications naming
`p` and no `didClose`: the client's `didOpen` for the unknown document `p`
is forwarded verbatim by the handler's early return, outside the refcount
regime, so more than one `didOpen` for `p` is outstanding and the claimed
"emitted only on the 0→1 transition / at most one outstanding" discipline
fails for the totality of server-side notifications. -/
theorem c2_counterexample :
    wfEvents [] c2cexEv ∧
    alookup (runDocEvents c2cexMf c2cexEv).1 "p".toList = Option.some 1 ∧
    openNotifsFor (runDocEvents c2cexMf c2cexEv).2 "p".toList = 2 ∧
    closeNotifsFor (runDocEvents c2cexMf c2cexEv).2 "p".toList = 0 ∧
    ¬ (openNotifsFor (runDocEvents c2cexMf c2cexEv).2 "p".toList ≤
        closeNotifsFor (runDocEvents c2cexMf c2cexEv).2 "p".toList + 1) := by
  refine ⟨⟨by decide, by decide, trivial⟩, by decide, by decide, by decide, by decide⟩

/-- C2 (amended): over any well-formed sequence of author-side
didOpen/didClose notifications, each preprocessed file's refcount equals
the number of author files currently open that map to it, and the
discipline governs the TRANSLATED notifications: a translated `didOpen`
toward the server is emitted exactly on a 0→1 transition (the file had no
entry) and a translated `didClose` exactly on a 1→0 transition (the entry
was at 1), so the translated didOpens exceed the translated didCloses by
one precisely while the file is open — at most one translated `didOpen` is
ever outstanding per preprocessed file.  Notifications for documents with
no known mapping (non-`file` schemes and unknown files, including
preprocessed files opened directly) are instead forwarded verbatim to the
server, outside the refcount regime. -/
theorem c2_translated_discipline (map_files : Str → List Str)
    (events : List DocEvent) (hwf : wfEvents [] events)
    (hnd : ∀ doc, (map_files doc).Nodup) :
    (∀ f, (alookup (runDocEvents map_files events).1 f).getD 0 =
      ((openDocs events).filter (fun doc => decide (f ∈ map_files doc))).length)
    ∧ (∀ f, countOcc (runDocEvents map_files events).2
          (ServerNotif.opened true f) =
        countOcc (runDocEvents map_files events).2
          (ServerNotif.closed true f) +
        (if alookup (runDocEvents map_files events).1 f = Option.none
         then 0 else 1))
    ∧ (∀ f doc,
        f ∈ (handle_did_open map_files (runDocEvents map_files events).1 doc).2.1 ↔
        (f ∈ map_files doc ∧
          alookup (runDocEvents map_files events).1 f = Option.none))
    ∧ (∀ f doc,
        f ∈ (handle_did_close map_files (runDocEvents map_files events).1 doc).2.1 ↔
        (f ∈ map_files doc ∧
          alookup (runDocEvents map_files events).1 f = Option.some 1))
    ∧ (∀ open_files doc,
        (handle_did_open map_files open_files doc).2.2 =
          (if map_files doc = [] then [doc] else []))
    ∧ (∀ open_files doc,
        (handle_did_close map_files open_files doc).2.2 =
          (if map_files doc = [] then [doc] else [])) := by
  have haux := c2_aux map_files hnd events [] [] [] hwf List.nodup_nil
    (fun f => by simp [alookup]) (fun f => by simp [countOcc])
  have h1 := haux.1
  have h2 := haux.2
  refine ⟨?_, ?_, ?_, ?_, ?_, ?_⟩
  · intro f
    rw [show (runDocEvents map_files events) =
      events.foldl (docStep map_files) ([], []) from rfl, h1 f]
    by_cases h0 : ((openDocsAux [] events).filter
        (fun d => decide (f ∈ map_files d))).length = 0
    · rw [if_pos h0]
      exact h0.symm
    · rw [if_neg h0]
      rfl
  · intro f
    rw [show (runDocEvents map_files events) =
      events.foldl (docStep map_files) ([], []) from rfl, h2 f, h1 f]
    by_cases h0 : ((openDocsAux [] events).filter
        (fun d => decide (f ∈ map_files d))).length = 0
    · rw [if_pos h0, if_pos h0, if_pos rfl]
    · rw [if_neg h0, if_neg h0, if_neg (by simp)]
  · intro f doc
    have hemit : (handle_did_open map_files
        (runDocEvents map_files events).1 doc).2.1 =
        (map_files doc).filter (fun g =>
          decide (alookup (runDocEvents map_files events).1 g = Option.none)) := by
      rw [handle_did_open_eq]
      rw [(openFold (map_files doc) (hnd doc)
        (runDocEvents map_files events).1 []).2]
      simp
    rw [hemit]
    constructor
    · intro hin
      obtain ⟨ha, hb⟩ := List.mem_filter.1 hin
      exact ⟨ha, by simpa using hb⟩
    · intro ⟨ha, hb⟩
      exact List.mem_filter.2 ⟨ha, by simpa using hb⟩
  · intro f doc
    have hemit : (handle_did_close map_files
        (runDocEvents map_files events).1 doc).2.1 =
        (map_files doc).filter (fun g =>
          match alookup (runDocEvents map_files events).1 g with
          | Option.some c => decide (c ≤ 1)
          | Option.none => false) := by
      rw [handle_did_close_eq]
      rw [(closeFold (map_files doc) (hnd doc)
        (runDocEvents map_files events).1 []).2]
      simp
    rw [hemit]
    have hval := h1 f
    rw [show (runDocEvents map_files events) =
      events.foldl (docStep map_files) ([], []) from rfl]
    constructor
    · intro hin
      obtain ⟨ha, hb⟩ := List.mem_filter.1 hin
      refine ⟨ha, ?_⟩
      rw [hval] at hb ⊢
      by_cases h0 : ((openDocsAux [] events).filter
          (fun d => decide (f ∈ map_files d))).length = 0
      · rw [if_pos h0] at hb
        simp at hb
      · rw [if_neg h0] at hb ⊢
        simp at hb
        have : ((openDocsAux [] events).filter
            (fun d => decide (f ∈ map_files d))).length = 1 := by omega
        rw [this]
    · intro ⟨ha, hb⟩
      refine List.mem_filter.2 ⟨ha, ?_⟩
      rw [hval] at hb
      rw [hval]
      by_cases h0 : ((openDocsAux [] events).filter
          (fun d => decide (f ∈ map_files d))).length = 0
      · rw [if_pos h0] at hb
        cases hb
      · rw [if_neg h0] at hb ⊢
        have h1eq : ((openDocsAux [] events).filter
            (fun d => decide (f ∈ map_files d))).length = 1 :=
          Option.some.inj hb
        rw [h1eq]
        simp
  · intro open_files doc
    rw [handle_did_open_eq]
  · intro open_files doc
    rw [handle_did_close_eq]

/-- Witness mapping: author file `A` is built into preprocessed `X` and
`Y`; author file `A2` also contributes to `X`. -/
def c2mf (doc : Str) : List Str :=
  if doc = "A".toList then ["X".toList, "Y".toList]
  else if doc = "A2".toList then ["X".toList] else []

/-- Witness trace: open `A`, open `A2`, close `A`. -/
def c2ev : List DocEvent :=
  [.didOpen "A".toList, .didOpen "A2".toList, .didClose "A".toList]

/-- C2 witness: after opening `A` and `A2` and closing `A`, the refcount of
`X` equals the author files still open that map to it, the translated
`didOpen`/`didClose` balance for `Y` matches its open state, and a
`didOpen` for the unknown document `Z` would be forwarded verbatim. -/
theorem c2_witness :
    (alookup (runDocEvents c2mf c2ev).1 "X".toList).getD 0 =
      ((openDocs c2ev).filter (fun doc => decide ("X".toList ∈ c2mf doc))).length ∧
    countOcc (runDocEvents c2mf c2ev).2 (ServerNotif.opened true "Y".toList) =
      countOcc (runDocEvents c2mf c2ev).2 (ServerNotif.closed true "Y".toList) +
      (if alookup (runDocEvents c2mf c2ev).1 "Y".toList = Option.none
       then 0 else 1) ∧
    (handle_did_open c2mf (runDocEvents c2mf c2ev).1 "Z".toList).2.2 =
      (if c2mf "Z".toList = [] then ["Z".toList] else []) := by
  have hwf : wfEvents [] c2ev := ⟨by decide, by decide, by decide, trivial⟩
  have hnd : ∀ doc, (c2mf doc).Nodup := by
    intro doc
    simp only [c2mf]
    by_cases h1 : doc = "A".toList
    · rw [if_pos h1]; decide
    · rw [if_neg h1]
      by_cases h2 : doc = "A2".toList
      · rw [if_pos h2]; decide
      · rw [if_neg h2]; exact List.nodup_nil
  have h := c2_translated_discipline c2mf c2ev hwf hnd
  exact ⟨h.1 "X".toList, h.2.1 "Y".toList,
    h.2.2.2.2.1 (runDocEvents c2mf c2ev).1 "Z".toList⟩

/-- `lsp_server::RequestId`: an integer or a string. -/
inductive ReqId where
  | num (n : Int)
  | str (s : String)
deriving DecidableEq, Repr

/-- The `u32 as i32` cast in
`RequestId::from(self.state.alloc_req_id() as i32)`. -/
def toI32 (c : Nat) : Int :=
  if c % 2 ^ 32 < 2 ^ 31 then ((c % 2 ^ 32 : Nat) : Int)
  else ((c % 2 ^ 32 : Nat) : Int) - 2 ^ 32

/-- `Direction` from src/global_state.rs. -/
inductive Direction where
  | toServer
  | fromServer
deriving DecidableEq, Repr

/-- `Direction::reverse`. -/
def Direction.reverse : Direction → Direction
  | .toServer => .fromServer
  | .fromServer => .toServer

/-- `ReqContext` from src/global_state.rs, restricted to the fields the ID
round-trip depends on (the untyped boxed `value` payload does not affect
IDs). -/
structure ReqContext where
  method : String
  req_id : ReqId
deriving DecidableEq, Repr

/-- A request registry (`HashMap<RequestId, ReqContext>`). -/
abbrev Registry := List (ReqId × ReqContext)

def rlookup (l : Registry) (k : ReqId) : Option ReqContext :=
  match l with
  | [] => Option.none
  | (k', v) :: rest => if k' = k then Option.some v else rlookup rest k

def rupdate : Registry → ReqId → ReqContext → Registry
  | [], _, _ => []
  | (g, w) :: rest, k, v =>
    if g = k then (k, v) :: rupdate rest k v else (g, w) :: rupdate rest k v

/-- `HashMap::insert`: overwrite an existing entry or append a new one. -/
def rinsert (l : Registry) (k : ReqId) (v : ReqContext) : Registry :=
  if (rlookup l k).isSome then rupdate l k v else l ++ [(k, v)]

/-- `HashMap::remove`: drop the entry stored under `k`. -/
def rremove : Registry → ReqId → Registry
  | [], _ => []
  | (g, w) :: rest, k =>
    if g = k then rremove rest k else (g, w) :: rremove rest k

/-- The dispatch-relevant part of `GlobalState`: the two request
registries and the monotonic ID counter (`next_req_id: u32`; modeled as
`Nat`, with the theorems bounding the number of allocations so the `u32`
increment cannot wrap). -/
structure DispatchState where
  client_reqs : Registry
  server_reqs : Registry
  next_req_id : Nat
deriving DecidableEq, Repr

/-- `GlobalState::reqs`: `ToServer` selects `client_reqs`. -/
def DispatchState.reqs (st : DispatchState) : Direction → Registry
  | .toServer => st.client_reqs
  | .fromServer => st.server_reqs

def DispatchState.setReqs (st : DispatchState) :
    Direction → Registry → DispatchState
  | .toServer, r => { st with client_reqs := r }
  | .fromServer, r => { st with server_reqs := r }

/-- `GlobalState::alloc_req_id`. -/
def alloc_req_id (st : DispatchState) : Nat × DispatchState :=
  (st.next_req_id, { st with next_req_id := st.next_req_id + 1 })

/-- `RequestDispatcher::prepare_req_id`: replace the incoming ID by a fresh
counter-generated one and record the original in a new `ReqContext`. -/
def prepare_req_id (st : DispatchState) (req_method : String)
    (req_id : ReqId) : ReqId × ReqContext × DispatchState :=
  let a := alloc_req_id st
  (ReqId.num (toI32 a.1), ⟨req_method, req_id⟩, a.2)

/-- `RequestDispatcher::send_req`: register the outbound request as pending
under its (fresh) ID. -/
def send_req (st : DispatchState) (direction : Direction)
    (req_context : ReqContext) (req_id : ReqId) : DispatchState :=
  st.setReqs direction (rinsert (st.reqs direction) req_id req_context)

/-- The successful path of `RequestDispatcher::on` / `forward`: prepare the
ID and send; returns the fresh outbound ID. -/
def dispatch_request (st : DispatchState) (direction : Direction)
    (method : String) (id : ReqId) : DispatchState × ReqId :=
  let p := prepare_req_id st method id
  (send_req p.2.2 direction p.2.1 p.1, p.1)

/-- The successful path of `RequestDispatcher::on_many`: one fresh ID and
one `ReqContextAlloc::alloc` context — same method, same original ID — per
shard. -/
def dispatch_request_many (st : DispatchState) (direction : Direction)
    (method : String) (id : ReqId) : Nat → DispatchState × List ReqId
  | 0 => (st, [])
  | n + 1 =>
    let p := dispatch_request st direction method id
    let rest := dispatch_request_many p.1 direction method id n
    (rest.1, p.2 :: rest.2)

/-- `ResponseDispatcher::new` followed by one of its emission paths: the
context for the response ID is removed from the opposite direction's
registry; when the handler path emits (`on`, `on_collect` with a final
shard, `forward`, `finish`), `send_res` restores the recorded original ID.
`emits = false` covers the non-emitting paths (malformed result,
`on_collect` holding back a non-final shard).  A response whose ID is not
registered is logged and dropped. -/
def dispatch_response (st : DispatchState) (direction : Direction)
    (res_id : ReqId) (emits : Bool) : DispatchState × Option ReqId :=
  match rlookup (st.reqs direction.reverse) res_id with
  | Option.none => (st, Option.none)
  | Option.some ctx =>
    (st.setReqs direction.reverse (rremove (st.reqs direction.reverse) res_id),
     if emits then Option.some ctx.req_id else Option.none)

/-- A proxy-side dispatch operation. -/
inductive DispatchOp where
  | request (direction : Direction) (method : String) (id : ReqId)
  | requestMany (direction : Direction) (method : String) (id : ReqId) (n : Nat)
  | response (direction : Direction) (res_id : ReqId) (emits : Bool)
deriving DecidableEq, Repr

/-- Wire-visible events: a request sent with a fresh ID recording its
original, and a response emitted toward a peer. -/
inductive DispatchLogEntry where
  | sentReq (direction : Direction) (fresh : ReqId) (orig : ReqId)
  | sentRes (direction : Direction) (inResponseTo : ReqId) (emitted : ReqId)
deriving DecidableEq, Repr

def dispatchStep (sl : DispatchState × List DispatchLogEntry)
    (op : DispatchOp) : DispatchState × List DispatchLogEntry :=
  match op with
  | .request dir m id =>
    let r := dispatch_request sl.1 dir m id
    (r.1, sl.2 ++ [.sentReq dir r.2 id])
  | .requestMany dir m id n =>
    let r := dispatch_request_many sl.1 dir m id n
    (r.1, sl.2 ++ r.2.map (fun k => .sentReq dir k id))
  | .response dir rid emits =>
    let r := dispatch_response sl.1 dir rid emits
    (r.1, sl.2 ++ (match r.2 with
      | Option.some e => [.sentRes dir rid e]
      | Option.none => []))

/-- Run a dispatch trace from the freshly initialized `GlobalState`. -/
def runDispatch (ops : List DispatchOp) :
    DispatchState × List DispatchLogEntry :=
  ops.foldl dispatchStep (⟨[], [], 0⟩, [])

/-- The fresh IDs assigned to outbound requests, in order. -/
def freshIds (log : List DispatchLogEntry) : List ReqId :=
  log.filterMap (fun entry => match entry with
    | .sentReq _ k _ => Option.some k
    | .sentRes _ _ _ => Option.none)

/-- Allocations performed by one operation. -/
def allocCount : DispatchOp → Nat
  | .request _ _ _ => 1
  | .requestMany _ _ _ n => n
  | .response _ _ _ => 0

/-- The dispatch invariant: every pending registry entry was logged with
its original ID, the assigned fresh IDs are distinct and all of counter
shape below the current counter, and every emitted response matches a
logged request of the opposite direction carrying the same original ID. -/
def DispatchInv (st : DispatchState) (log : List DispatchLogEntry) : Prop :=
  (∀ dir k ctx, (k, ctx) ∈ st.reqs dir →
    DispatchLogEntry.sentReq dir k ctx.req_id ∈ log)
  ∧ (freshIds log).Nodup
  ∧ (∀ k ∈ freshIds log, ∃ c, c < st.next_req_id ∧ k = ReqId.num (toI32 c))
  ∧ (∀ dir rid e, DispatchLogEntry.sentRes dir rid e ∈ log →
      DispatchLogEntry.sentReq dir.reverse rid e ∈ log)

theorem toI32_inj (c1 c2 : Nat) (h1 : c1 < 2 ^ 32) (h2 : c2 < 2 ^ 32)
    (h : toI32 c1 = toI32 c2) : c1 = c2 := by
  unfold toI32 at h
  rw [Nat.mod_eq_of_lt h1, Nat.mod_eq_of_lt h2] at h
  by_cases hc1 : c1 < 2 ^ 31 <;> by_cases hc2 : c2 < 2 ^ 31 <;>
    simp only [hc1, hc2, if_true, if_false] at h <;> omega

theorem mem_of_rlookup (l : Registry) (k : ReqId) (v : ReqContext)
    (h : rlookup l k = Option.some v) : (k, v) ∈ l := by
  induction l with
  | nil => cases h
  | cons p rest ih =>
    obtain ⟨g, w⟩ := p
    by_cases hg : g = k
    · subst hg
      rw [rlookup, if_pos rfl] at h
      cases h
      exact List.mem_cons_self _ _
    · rw [rlookup, if_neg hg] at h
      exact List.mem_cons_of_mem _ (ih h)

theorem mem_rupdate (l : Registry) (k : ReqId) (v : ReqContext)
    (p : ReqId × ReqContext) (h : p ∈ rupdate l k v) : p ∈ l ∨ p = (k, v) := by
  induction l with
  | nil => cases h
  | cons q rest ih =>
    obtain ⟨g, w⟩ := q
    by_cases hg : g = k
    · rw [rupdate, if_pos hg] at h
      rcases List.mem_cons.1 h with hc | hc
      · exact Or.inr hc
      · rcases ih hc with hc' | hc'
        · exact Or.inl (List.mem_cons_of_mem _ hc')
        · exact Or.inr hc'
    · rw [rupdate, if_neg hg] at h
      rcases List.mem_cons.1 h with hc | hc
      · exact Or.inl (hc ▸ List.mem_cons_self _ _)
      · rcases ih hc with hc' | hc'
        · exact Or.inl (List.mem_cons_of_mem _ hc')
        · exact Or.inr hc'

theorem mem_rinsert (l : Registry) (k : ReqId) (v : ReqContext)
    (p : ReqId × ReqContext) (h : p ∈ rinsert l k v) : p ∈ l ∨ p = (k, v) := by
  rw [rinsert] at h
  by_cases hl : (rlookup l k).isSome
  · rw [if_pos hl] at h
    exact mem_rupdate l k v p h
  · rw [if_neg hl] at h
    rcases List.mem_append.1 h with hc | hc
    · exact Or.inl hc
    · simp only [List.mem_singleton] at hc
      exact Or.inr hc

theorem mem_rremove (l : Registry) (k : ReqId) (p : ReqId × ReqContext)
    (h : p ∈ rremove l k) : p ∈ l := by
  induction l with
  | nil => cases h
  | cons q rest ih =>
    obtain ⟨g, w⟩ := q
    by_cases hg : g = k
    · rw [rremove, if_pos hg] at h
      exact List.mem_cons_of_mem _ (ih h)
    · rw [rremove, if_neg hg] at h
      rcases List.mem_cons.1 h with hc | hc
      · exact hc ▸ List.mem_cons_self _ _
      · exact List.mem_cons_of_mem _ (ih hc)

theorem freshIds_append (l1 l2 : List DispatchLogEntry) :
    freshIds (l1 ++ l2) = freshIds l1 ++ freshIds l2 := by
  simp [freshIds, List.filterMap_append]

/-- Preservation of the dispatch invariant by a single request dispatch. -/
theorem inv_request (st : DispatchState) (log : List DispatchLogEntry)
    (dir : Direction) (m : String) (id : ReqId)
    (hinv : DispatchInv st log) (hb : st.next_req_id + 1 ≤ 2 ^ 32) :
    DispatchInv (dispatch_request st dir m id).1
      (log ++ [.sentReq dir (dispatch_request st dir m id).2 id])
    ∧ (dispatch_request st dir m id).1.next_req_id = st.next_req_id + 1
    ∧ (dispatch_request st dir m id).2 = ReqId.num (toI32 st.next_req_id) := by
  obtain ⟨ha, hbn, hc, hd⟩ := hinv
  have hfresh : (dispatch_request st dir m id).2 =
      ReqId.num (toI32 st.next_req_id) := rfl
  have hnext : (dispatch_request st dir m id).1.next_req_id =
      st.next_req_id + 1 := by cases dir <;> rfl
  have hsingle : freshIds [DispatchLogEntry.sentReq dir
      (dispatch_request st dir m id).2 id] =
      [(dispatch_request st dir m id).2] := rfl
  have hnotin : ReqId.num (toI32 st.next_req_id) ∉ freshIds log := by
    intro hmem
    obtain ⟨c, hlt, hck⟩ := hc _ hmem
    have : c = st.next_req_id :=
      toI32_inj c st.next_req_id (by omega) (by omega)
        (ReqId.num.inj hck.symm)
    omega
  refine ⟨⟨?_, ?_, ?_, ?_⟩, hnext, hfresh⟩
  · intro dir' k ctx hmem
    by_cases hdir : dir' = dir
    · subst hdir
      have hreqs : (dispatch_request st dir' m id).1.reqs dir' =
          rinsert (st.reqs dir') (ReqId.num (toI32 st.next_req_id)) ⟨m, id⟩ := by
        cases dir' <;> rfl
      rw [hreqs] at hmem
      rcases mem_rinsert _ _ _ _ hmem with hold | hnew
      · exact List.mem_append_left _ (ha dir' k ctx hold)
      · refine List.mem_append_right _ ?_
        rw [hfresh]
        cases hnew
        exact List.mem_singleton.2 rfl
    · have hreqs : (dispatch_request st dir m id).1.reqs dir' =
          st.reqs dir' := by
        cases dir <;> cases dir' <;> first | rfl | exact absurd rfl hdir
      rw [hreqs] at hmem
      exact List.mem_append_left _ (ha dir' k ctx hmem)
  · rw [freshIds_append, hsingle, hfresh]
    refine List.Nodup.append hbn (List.nodup_singleton _) ?_
    intro a hmem hmem2
    simp only [List.mem_singleton] at hmem2
    subst hmem2
    exact hnotin hmem
  · intro k hk
    rw [freshIds_append] at hk
    rcases List.mem_append.1 hk with hk | hk
    · obtain ⟨c, hlt, hck⟩ := hc k hk
      exact ⟨c, by rw [hnext]; omega, hck⟩
    · rw [hsingle, hfresh] at hk
      simp only [List.mem_singleton] at hk
      exact ⟨st.next_req_id, by rw [hnext]; omega, hk⟩
  · intro dir' rid e hmem
    rcases List.mem_append.1 hmem with hmem | hmem
    · exact List.mem_append_left _ (hd dir' rid e hmem)
    · simp only [List.mem_singleton] at hmem
      cases hmem

theorem setReqs_reqs_self (st : DispatchState) (d : Direction) (r : Registry) :
    (st.setReqs d r).reqs d = r := by
  cases d <;> rfl

theorem setReqs_reqs_other (st : DispatchState) (d d' : Direction)
    (r : Registry) (h : d' ≠ d) : (st.setReqs d r).reqs d' = st.reqs d' := by
  cases d <;> cases d' <;> first | rfl | exact absurd rfl h

theorem setReqs_next (st : DispatchState) (d : Direction) (r : Registry) :
    (st.setReqs d r).next_req_id = st.next_req_id := by
  cases d <;> rfl

/-- Preservation of the dispatch invariant by a fan-out dispatch: all
shards carry the same original client ID. -/
theorem inv_requestMany (dir : Direction) (m : String) (id : ReqId) :
    ∀ (n : Nat) (st : DispatchState) (log : List DispatchLogEntry),
    DispatchInv st log → st.next_req_id + n ≤ 2 ^ 32 →
    DispatchInv (dispatch_request_many st dir m id n).1
      (log ++ ((dispatch_request_many st dir m id n).2).map
        (fun k => DispatchLogEntry.sentReq dir k id))
    ∧ (dispatch_request_many st dir m id n).1.next_req_id =
        st.next_req_id + n := by
  intro n
  induction n with
  | zero =>
    intro st log hinv _
    have h0 : dispatch_request_many st dir m id 0 = (st, []) := rfl
    rw [h0]
    exact ⟨by simpa using hinv, by simp⟩
  | succ n ih =>
    intro st log hinv hb
    have h1 := inv_request st log dir m id hinv (by omega)
    have h2 := ih (dispatch_request st dir m id).1
      (log ++ [.sentReq dir (dispatch_request st dir m id).2 id])
      h1.1 (by rw [h1.2.1]; omega)
    have heq : dispatch_request_many st dir m id (n + 1) =
        ((dispatch_request_many (dispatch_request st dir m id).1 dir m id n).1,
         (dispatch_request st dir m id).2 ::
           (dispatch_request_many (dispatch_request st dir m id).1 dir m id n).2) := rfl
    rw [heq]
    refine ⟨?_, ?_⟩
    · have hlist : log ++ ((dispatch_request st dir m id).2 ::
          (dispatch_request_many (dispatch_request st dir m id).1 dir m id n).2).map
            (fun k => DispatchLogEntry.sentReq dir k id) =
          (log ++ [.sentReq dir (dispatch_request st dir m id).2 id]) ++
            ((dispatch_request_many (dispatch_request st dir m id).1 dir m id n).2).map
              (fun k => DispatchLogEntry.sentReq dir k id) := by
        simp
      rw [hlist]
      exact h2.1
    · rw [h2.2, h1.2.1]
      omega

/-- Preservation of the dispatch invariant by a response dispatch: the
emitted ID is the original ID recorded for the matching request. -/
theorem inv_response (st : DispatchState) (log : List DispatchLogEntry)
    (dir : Direction) (rid : ReqId) (emits : Bool)
    (hinv : DispatchInv st log) :
    DispatchInv (dispatch_response st dir rid emits).1
      (log ++ (match (dispatch_response st dir rid emits).2 with
        | Option.some e => [DispatchLogEntry.sentRes dir rid e]
        | Option.none => []))
    ∧ (dispatch_response st dir rid emits).1.next_req_id = st.next_req_id := by
  obtain ⟨ha, hbn, hc, hd⟩ := hinv
  cases hctx : rlookup (st.reqs dir.reverse) rid with
  | none =>
    have heq : dispatch_response st dir rid emits = (st, Option.none) := by
      rw [dispatch_response, hctx]
    rw [heq]
    exact ⟨by simpa using ⟨ha, hbn, hc, hd⟩, rfl⟩
  | some ctx =>
    have heq : dispatch_response st dir rid emits =
        (st.setReqs dir.reverse (rremove (st.reqs dir.reverse) rid),
         if emits then Option.some ctx.req_id else Option.none) := by
      rw [dispatch_response, hctx]
    have horig : DispatchLogEntry.sentReq dir.reverse rid ctx.req_id ∈ log :=
      ha dir.reverse rid ctx (mem_of_rlookup _ _ _ hctx)
    have hstateInv : ∀ tail : List DispatchLogEntry, freshIds tail = [] →
        (∀ dir' rid' e', DispatchLogEntry.sentRes dir' rid' e' ∈ tail →
          DispatchLogEntry.sentReq dir'.reverse rid' e' ∈ log) →
        DispatchInv (st.setReqs dir.reverse (rremove (st.reqs dir.reverse) rid))
          (log ++ tail) := by
      intro tail htail1 htail2
      refine ⟨?_, ?_, ?_, ?_⟩
      · intro dir' k ctx' hmem
        by_cases hdir : dir' = dir.reverse
        · subst hdir
          rw [setReqs_reqs_self] at hmem
          exact List.mem_append_left _ (ha _ k ctx' (mem_rremove _ _ _ hmem))
        · rw [setReqs_reqs_other _ _ _ _ hdir] at hmem
          exact List.mem_append_left _ (ha dir' k ctx' hmem)
      · rw [freshIds_append, htail1, List.append_nil]
        exact hbn
      · intro k hk
        rw [freshIds_append, htail1, List.append_nil] at hk
        obtain ⟨c, hlt, hck⟩ := hc k hk
        exact ⟨c, by rw [setReqs_next]; omega, hck⟩
      · intro dir' rid' e' hmem
        rcases List.mem_append.1 hmem with hmem | hmem
        · exact List.mem_append_left _ (hd dir' rid' e' hmem)
        · exact List.mem_append_left _ (htail2 dir' rid' e' hmem)
    rw [heq]
    cases emits with
    | true =>
      refine ⟨?_, by rw [setReqs_next]⟩
      refine hstateInv [DispatchLogEntry.sentRes dir rid ctx.req_id] rfl ?_
      intro dir' rid' e' hmem
      simp only [List.mem_singleton] at hmem
      cases hmem
      exact horig
    | false =>
      refine ⟨?_, by rw [setReqs_next]⟩
      exact hstateInv [] rfl (fun dir' rid' e' hmem => by cases hmem)

/-- The dispatch invariant holds along any trace whose total allocations
keep the `u32` counter from wrapping. -/
theorem inv_run (ops : List DispatchOp) :
    ∀ (st : DispatchState) (log : List DispatchLogEntry),
    DispatchInv st log →
    st.next_req_id + (ops.map allocCount).sum ≤ 2 ^ 32 →
    DispatchInv (ops.foldl dispatchStep (st, log)).1
      (ops.foldl dispatchStep (st, log)).2
    ∧ (ops.foldl dispatchStep (st, log)).1.next_req_id =
        st.next_req_id + (ops.map allocCount).sum := by
  induction ops with
  | nil =>
    intro st log hinv _
    exact ⟨hinv, by simp⟩
  | cons op rest ih =>
    intro st log hinv hb
    rw [List.foldl_cons]
    cases op with
    | request dir m id =>
      have hsum : ((DispatchOp.request dir m id :: rest).map allocCount).sum =
          1 + (rest.map allocCount).sum := by simp [allocCount]
      rw [hsum] at hb
      have hstep : dispatchStep (st, log) (DispatchOp.request dir m id) =
          ((dispatch_request st dir m id).1,
           log ++ [.sentReq dir (dispatch_request st dir m id).2 id]) := rfl
      rw [hstep]
      have h1 := inv_request st log dir m id hinv (by omega)
      have h2 := ih _ _ h1.1 (by rw [h1.2.1]; omega)
      refine ⟨h2.1, ?_⟩
      rw [h2.2, h1.2.1, hsum]
      omega
    | requestMany dir m id n =>
      have hsum : ((DispatchOp.requestMany dir m id n :: rest).map allocCount).sum =
          n + (rest.map allocCount).sum := by simp [allocCount]
      rw [hsum] at hb
      have hstep : dispatchStep (st, log) (DispatchOp.requestMany dir m id n) =
          ((dispatch_request_many st dir m id n).1,
           log ++ ((dispatch_request_many st dir m id n).2).map
             (fun k => DispatchLogEntry.sentReq dir k id)) := rfl
      rw [hstep]
      have h1 := inv_requestMany dir m id n st log hinv (by omega)
      have h2 := ih _ _ h1.1 (by rw [h1.2]; omega)
      refine ⟨h2.1, ?_⟩
      rw [h2.2, h1.2, hsum]
      omega
    | response dir rid emits =>
      have hsum : ((DispatchOp.response dir rid emits :: rest).map allocCount).sum =
          0 + (rest.map allocCount).sum := by simp [allocCount]
      rw [hsum] at hb
      have hstep : dispatchStep (st, log) (DispatchOp.response dir rid emits) =
          ((dispatch_response st dir rid emits).1,
           log ++ (match (dispatch_response st dir rid emits).2 with
             | Option.some e => [DispatchLogEntry.sentRes dir rid e]
             | Option.none => [])) := rfl
      rw [hstep]
      have h1 := inv_response st log dir rid emits hinv
      have h2 := ih _ _ h1.1 (by rw [h1.2]; omega)
      refine ⟨h2.1, ?_⟩
      rw [h2.2, h1.2, hsum]
      omega

/-- C3: every response the proxy emits toward a peer carries exactly the ID
that peer used in the originating request — the request dispatcher replaces
the incoming ID by a fresh counter-generated one and records the original,
the response dispatcher restores the recorded original, and for a fan-out
every shard carries the same original client ID.  Fresh IDs are pairwise
distinct as long as the `u32` counter does not wrap, so the originating
request in the log is unique. -/
theorem c3_id_round_trip (ops : List DispatchOp)
    (hb : (ops.map allocCount).sum ≤ 2 ^ 32) :
    (∀ dir rid e,
      DispatchLogEntry.sentRes dir rid e ∈ (runDispatch ops).2 →
      DispatchLogEntry.sentReq dir.reverse rid e ∈ (runDispatch ops).2)
    ∧ (freshIds (runDispatch ops).2).Nodup := by
  have hinit : DispatchInv ⟨[], [], 0⟩ [] := by
    refine ⟨?_, List.nodup_nil, ?_, ?_⟩
    · intro dir k ctx h
      cases dir <;> cases h
    · intro k hk
      cases hk
    · intro dir rid e h
      cases h
  have h := inv_run ops ⟨[], [], 0⟩ [] hinit (by simpa using hb)
  exact ⟨h.1.2.2.2, h.1.2.1⟩

/-- C3 witness: a fan-out of two shards for client request ID 7 assigns
fresh IDs 0 and 1; the response to shard 1 is emitted back to the client
with the original ID 7, matching the logged originating request. -/
theorem c3_witness :
    DispatchLogEntry.sentRes Direction.fromServer (ReqId.num 1) (ReqId.num 7) ∈
      (runDispatch [DispatchOp.requestMany .toServer "m" (ReqId.num 7) 2,
        DispatchOp.response .fromServer (ReqId.num 1) true]).2 ∧
    DispatchLogEntry.sentReq Direction.toServer (ReqId.num 1) (ReqId.num 7) ∈
      (runDispatch [DispatchOp.requestMany .toServer "m" (ReqId.num 7) 2,
        DispatchOp.response .fromServer (ReqId.num 1) true]).2 := by
  have h := (c3_id_round_trip
    [DispatchOp.requestMany .toServer "m" (ReqId.num 7) 2,
     DispatchOp.response .fromServer (ReqId.num 1) true] (by decide)).1
    Direction.fromServer (ReqId.num 1) (ReqId.num 7) (by decide)
  exact ⟨by decide, h⟩
